import Mathlib

/-!
Formal model of the SmartRoute-Sullia transit core.

Shallow embedding of the repository's shortest-path engine
(`transit/utils.py`), the shortest-route view (`transit/views.py`), and
the two batch management commands (`build_ors_matrix.py`,
`refresh_route_distances_with_ors.py`).

Modelling conventions:
* Python floats are modelled as exact rationals (`ℚ`); Python's
  `round(x, n)` (round-half-to-even on the exact value) is modelled by
  `pyRound`.
* Python dicts are modelled as association lists where the most recent
  binding is consed to the front; `dictGet` is `d.get(k)`.
* The `heapq` priority queue of `(distance, node)` tuples is modelled as a
  list kept sorted under the lexicographic order `heapLe`; popping the
  head of the sorted list is observationally identical to `heappop`
  because tuples comparing equal are structurally identical.
* The unbounded `while` loops of `dijkstra_shortest_path` are written
  with an explicit fuel parameter; exhausting fuel yields the outcome
  `diverge`, and the fuel chosen in `dijkstra_shortest_path` is proved
  sufficient where a claim needs termination.
* Network behaviour of one HTTP attempt is a parameter of type
  `NetOutcome`; its constructors are exactly the outcomes the repository
  itself distinguishes (`error.HTTPError`, `error.URLError`,
  `socket.timeout`, `ssl.SSLError` in the management commands' except
  clauses, plus a JSON body that `json.loads` rejects, plus a decoded
  body).  Which of these are caught and which propagate as exceptions is
  transcribed from each call site's `except` clauses.
* The transcendental functions used by `haversine_km` (`math.sin` etc.)
  are not rational-computable; they are supplied as an explicit record
  `RealOps` of function parameters, and `haversine_km` transcribes the
  source formula over any such record.
-/

namespace SmartRoute

/-! ### Python value helpers -/

/-- Round-half-to-even to an integer, as Python's builtin `round`. -/
def roundHalfEven (x : ℚ) : ℤ :=
  if x - ⌊x⌋ = 1 / 2 then (if 2 ∣ ⌊x⌋ then ⌊x⌋ else ⌊x⌋ + 1) else round x

/-- Python's `round(x, ndigits)` on the exact rational value. -/
def pyRound (ndigits : ℕ) (x : ℚ) : ℚ :=
  (roundHalfEven (x * 10 ^ ndigits) : ℚ) / 10 ^ ndigits

/-- Python dict lookup `d.get(k)` over an association list whose most
recent binding is first. -/
def dictGet {κ α : Type} [DecidableEq κ] : List (κ × α) → κ → Option α
  | [], _ => none
  | (k, v) :: rest, key => if key = k then some v else dictGet rest key

/-! ### Data model (`transit/models.py`) -/

/-- `BusStop` model: name, latitude, longitude (plus primary key). -/
structure BusStop where
  id : Nat
  name : String
  latitude : ℚ
  longitude : ℚ
deriving DecidableEq, Inhabited

/-- `Route` model: directed edge `start_stop → end_stop` with a distance
in kilometers and an optional duration in minutes (plus primary key).
`Meta.unique_together = (start_stop, end_stop)` is the uniqueness
invariant assumed as a hypothesis where proofs need it. -/
structure Route where
  id : Nat
  start_stop : Nat
  end_stop : Nat
  distance : ℚ
  duration : Option ℚ
deriving DecidableEq, Inhabited

/-- The persisted store: all bus stops and all route edges, in the
store's iteration order. -/
structure DB where
  stops : List BusStop
  edges : List Route
deriving DecidableEq

/-! ### Shortest path engine (`transit/utils.py`) -/

/-- One element of the `stops` field of a path result. -/
structure StopInfo where
  id : Nat
  name : String
  latitude : ℚ
  longitude : ℚ
deriving DecidableEq

def stopInfoOf (s : BusStop) : StopInfo :=
  ⟨s.id, s.name, s.latitude, s.longitude⟩

/-- The dict returned by `dijkstra_shortest_path` on success;
`total_duration_min = none` models the key being absent. -/
structure PathResult where
  path : List Nat
  total_distance : ℚ
  stops : List StopInfo
  total_duration_min : Option ℚ
deriving DecidableEq

/-- Python exceptions that the embedded code can raise uncaught. -/
inductive PyExn
  | doesNotExist
  | keyError
  | timeoutExn
  | sslExn
  | jsonDecode
deriving DecidableEq

/-- Result of one call to `dijkstra_shortest_path`: a result dict, the
`None` no-path value, an uncaught exception, or - a pure modelling
artifact - fuel exhaustion standing for non-termination. -/
inductive DijkstraOutcome
  | ok (r : PathResult)
  | noPath
  | exn (e : PyExn)
  | diverge
deriving DecidableEq

/-- `build_graph()`: adjacency of `u` is the list of
`(end_stop, distance)` over all edges with `start_stop = u`, in store
order (the dict `setdefault`/`append` construction yields exactly
this). -/
def build_graph (edges : List Route) : Nat → List (Nat × ℚ) := fun u =>
  (edges.filter (fun e => e.start_stop == u)).map (fun e => (e.end_stop, e.distance))

/-- The order `heapq` uses on `(distance, node)` tuples. -/
def heapLe (a b : ℚ × Nat) : Prop :=
  a.1 < b.1 ∨ (a.1 = b.1 ∧ a.2 ≤ b.2)

instance : DecidableRel heapLe := fun a b => by
  unfold heapLe; infer_instance

instance : IsTotal (ℚ × Nat) heapLe := by
  constructor
  intro a b
  rcases lt_trichotomy a.1 b.1 with h | h | h
  · exact Or.inl (Or.inl h)
  · rcases Nat.le_total a.2 b.2 with h2 | h2
    · exact Or.inl (Or.inr ⟨h, h2⟩)
    · exact Or.inr (Or.inr ⟨h.symm, h2⟩)
  · exact Or.inr (Or.inl h)

instance : IsTrans (ℚ × Nat) heapLe := by
  constructor
  intro a b c hab hbc
  rcases hab with h1 | ⟨h1, h1'⟩ <;> rcases hbc with h2 | ⟨h2, h2'⟩
  · exact Or.inl (h1.trans h2)
  · exact Or.inl (h2 ▸ h1)
  · exact Or.inl (h1 ▸ h2)
  · exact Or.inr ⟨h1.trans h2, h1'.trans h2'⟩

/-- Mutable state of the Dijkstra main loop: the heap (sorted list),
the `dist` dict and the `prev` dict. -/
structure LoopState where
  heap : List (ℚ × Nat)
  dist : List (Nat × ℚ)
  prev : List (Nat × Option Nat)

/-- Body of `for v, w in graph.get(u, [])`: relax one adjacency entry of
the node `u` that was just popped with key `d`. -/
def relaxStep (d : ℚ) (u : Nat) (st : LoopState) (vw : Nat × ℚ) : LoopState :=
  let alt := d + vw.2
  match dictGet st.dist vw.1 with
  | some dv =>
    if alt < dv then
      ⟨List.orderedInsert heapLe (alt, vw.1) st.heap,
       (vw.1, alt) :: st.dist, (vw.1, some u) :: st.prev⟩
    else st
  | none =>
      ⟨List.orderedInsert heapLe (alt, vw.1) st.heap,
       (vw.1, alt) :: st.dist, (vw.1, some u) :: st.prev⟩

def relaxNeighbors (d : ℚ) (u : Nat) (nbrs : List (Nat × ℚ)) (st : LoopState) : LoopState :=
  nbrs.foldl (relaxStep d u) st

/-- The `while heap:` loop.  Pops the minimum, skips visited nodes,
stops when the destination is settled (the `visited.add` / `break` pair
is order-insensitive because `visited` is not used afterwards), and
otherwise relaxes all outgoing edges.  Returns the final `dist` and
`prev` dicts; `none` is fuel exhaustion. -/
def dijkstraLoop (adj : Nat → List (Nat × ℚ)) (dest : Nat) :
    Nat → List (ℚ × Nat) → List (Nat × ℚ) → List (Nat × Option Nat) → List Nat →
    Option (List (Nat × ℚ) × List (Nat × Option Nat))
  | 0, _, _, _, _ => none
  | _ + 1, [], dist, prev, _ => some (dist, prev)
  | fuel + 1, (d, u) :: rest, dist, prev, visited =>
    if u ∈ visited then
      dijkstraLoop adj dest fuel rest dist prev visited
    else if u = dest then
      some (dist, prev)
    else
      let st := relaxNeighbors d u (adj u) ⟨rest, dist, prev⟩
      dijkstraLoop adj dest fuel st.heap st.dist st.prev (u :: visited)

/-- The `while cur is not None` reconstruction walk: emit `cur`, then
follow `prev.get(cur)` (which is `None` both at the origin, whose stored
predecessor is `None`, and for a missing key). -/
def walkPrev (prev : List (Nat × Option Nat)) : Nat → Nat → Option (List Nat)
  | 0, _ => none
  | fuel + 1, cur =>
    match (dictGet prev cur).getD none with
    | none => some [cur]
    | some nxt => (walkPrev prev fuel nxt).map (cur :: ·)

/-- `stops_by_id[sid]` for each id on the path; `none` models the
`KeyError` raised when an id has no persisted stop. -/
def detailedStops (stops : List BusStop) (path_ids : List Nat) : Option (List StopInfo) :=
  path_ids.mapM (fun sid => (stops.find? (fun s => s.id == sid)).map stopInfoOf)

/-- The accumulation loop over `edge_pairs`: look each pair up in the
duration dict, abort with `none` as soon as a duration is absent. -/
def sumDurations (dur_map : List ((Nat × Nat) × Option ℚ)) : ℚ → List (Nat × Nat) → Option ℚ
  | acc, [] => some acc
  | acc, (u, v) :: rest =>
    match (dictGet dur_map (u, v)).getD none with
    | none => none
    | some dval => sumDurations dur_map (acc + dval) rest

/-- The optional-duration block of `dijkstra_shortest_path`: build the
`(u, v) → duration` dict from the routes matching the filter
`start_stop_id__in ∧ end_stop_id__in` and sum along the path, rounding
the total to two digits.  Returns `none` iff the `total_duration_min`
key is left absent. -/
def computeDuration (edges : List Route) (path_ids : List Nat) : Option ℚ :=
  let edge_pairs := path_ids.zip path_ids.tail
  if edge_pairs.isEmpty then none
  else
    let starts := edge_pairs.map (·.1)
    let ends := edge_pairs.map (·.2)
    let routes := edges.filter (fun e => starts.contains e.start_stop && ends.contains e.end_stop)
    let dur_map := routes.foldl
      (fun m r => ((r.start_stop, r.end_stop), r.duration) :: m)
      ([] : List ((Nat × Nat) × Option ℚ))
    (sumDurations dur_map 0 edge_pairs).map (pyRound 2)

/-- Fuel that is proved sufficient for `dijkstraLoop`: every node that
can ever enter the heap is the origin or an edge target, the settled set
grows monotonically, and each settling pushes at most `edges.length`
entries. -/
def dijkstraFuel (edges : List Route) (origin : Nat) : Nat :=
  (insert origin (edges.map (·.end_stop)).toFinset).card * (edges.length + 1) + 2

/-- `dijkstra_shortest_path(origin_id, destination_id)`. -/
def dijkstra_shortest_path (db : DB) (origin_id destination_id : Nat) : DijkstraOutcome :=
  if origin_id = destination_id then
    match db.stops.find? (fun s => s.id == origin_id) with
    | none => .exn .doesNotExist
    | some stop =>
      .ok ⟨[origin_id], 0, [stopInfoOf stop], none⟩
  else
    let adj := build_graph db.edges
    match dijkstraLoop adj destination_id (dijkstraFuel db.edges origin_id)
        [(0, origin_id)] [(origin_id, 0)] [(origin_id, none)] [] with
    | none => .diverge
    | some (dist, prev) =>
      match dictGet dist destination_id with
      | none => .noPath
      | some total =>
        match walkPrev prev (prev.length + 1) destination_id with
        | none => .diverge
        | some rev =>
          let path_ids := rev.reverse
          match detailedStops db.stops path_ids with
          | none => .exn .keyError
          | some ordered =>
            .ok ⟨path_ids, total, ordered, computeDuration db.edges path_ids⟩

/-! ### Directed chains of persisted edges (specification side) -/

/-- Distance of the (unique, by `unique_together`) edge `u → v`;
`find?` picks the first matching store record. -/
def edgeWeight (edges : List Route) (u v : Nat) : Option ℚ :=
  (edges.find? (fun e => e.start_stop == u && e.end_stop == v)).map (·.distance)

/-- Duration of the edge `u → v` (absent if the edge is absent or its
duration is `None`). -/
def edgeDuration (edges : List Route) (u v : Nat) : Option ℚ :=
  (edges.find? (fun e => e.start_stop == u && e.end_stop == v)).bind (·.duration)

/-- A list of stop ids is a directed path: every consecutive pair is a
persisted edge. -/
def chainOK (edges : List Route) : List Nat → Bool
  | u :: v :: rest => (edgeWeight edges u v).isSome && chainOK edges (v :: rest)
  | _ => true

/-- Sum of the edge distances along a directed path. -/
def chainCost (edges : List Route) : List Nat → ℚ
  | u :: v :: rest => (edgeWeight edges u v).getD 0 + chainCost edges (v :: rest)
  | _ => 0

/-- Sum of the edge durations along a directed path, absent as soon as
one edge's duration is absent. -/
def specDurationSum (edges : List Route) : List Nat → Option ℚ
  | u :: v :: rest =>
    match edgeDuration edges u v, specDurationSum edges (v :: rest) with
    | some x, some y => some (x + y)
    | _, _ => none
  | _ => some 0

/-! ### External distance provider (`transit/utils.py` ORS helpers) -/

/-- The shape-parsing outcome on a JSON-decoded provider response body:
`features` empty, a usable summary (with the `get(..., 0.0)` defaults
already applied), or any exception during the field walk (caught by the
surrounding `except Exception`). -/
inductive OrsParse
  | noFeatures
  | summary (distance_m duration_s : ℚ)
  | shapeError
deriving DecidableEq

/-- Behaviour of one network attempt (`urlopen` + `read` + `json.loads`),
the alternatives this repository itself distinguishes:
* `ok` - success with a decoded body;
* `httpError` - non-success status (`error.HTTPError`);
* `urlError` - transport/connection failure incl. wrapped connect-phase
  timeouts and TLS failures (`error.URLError`);
* `timeout` - a raw `socket.timeout` (e.g. during the response read);
* `sslError` - a raw `ssl.SSLError`;
* `badJson` - undecodable body (`json.JSONDecodeError`). -/
inductive NetOutcome
  | ok (data : OrsParse)
  | httpError
  | urlError
  | timeout
  | sslError
  | badJson
deriving DecidableEq

/-- Successful return value of `ors_directions_for_stops`:
`geojson` is the decoded feature collection passed through. -/
structure OrsResult where
  geojson : OrsParse
  distance_km : ℚ
  duration_min : ℚ
deriving DecidableEq

/-- `ors_directions_for_stops(stops)`: guard, one `_ors_request`, and
the summary parse.  The `except` clauses catch only `error.HTTPError`
and `error.URLError`; a raw `socket.timeout`, `ssl.SSLError` or
`json.JSONDecodeError` from the request propagates.  The second return
component counts the `_ors_request` invocations (0 or 1). -/
def ors_directions_for_stops (api_key : String) (stops : List StopInfo)
    (net : NetOutcome) : Except PyExn (Option OrsResult) × Nat :=
  if api_key = "" ∨ stops = [] ∨ stops.length < 2 then (.ok none, 0)
  else
    match net with
    | .httpError => (.ok none, 1)
    | .urlError => (.ok none, 1)
    | .timeout => (.error .timeoutExn, 1)
    | .sslError => (.error .sslExn, 1)
    | .badJson => (.error .jsonDecode, 1)
    | .ok data =>
      match data with
      | .noFeatures => (.ok none, 1)
      | .shapeError => (.ok none, 1)
      | .summary distance_m duration_s =>
        (.ok (some ⟨data, pyRound 3 (distance_m / 1000), pyRound 1 (duration_s / 60)⟩), 1)

/-! ### Shortest-route view (`transit/views.py`) -/

/-- Responses of the `shortest_route` view.  `serverError` models an
exception propagating out of the view (Django's 500); `hang` is the
fuel artifact. -/
inductive HttpResponse
  | ok (r : PathResult) (ors : Option OrsResult)
  | notFound
  | serverError
  | hang
deriving DecidableEq

/-- `shortest_route(origin, destination)` after parameter parsing: run
Dijkstra, map `None` to 404, enrich with ORS if that returns a value,
and let any exception propagate. -/
def shortest_route (api_key : String) (net : NetOutcome) (db : DB)
    (origin destination : Nat) : HttpResponse :=
  match dijkstra_shortest_path db origin destination with
  | .diverge => .hang
  | .exn _ => .serverError
  | .noPath => .notFound
  | .ok result =>
    match (ors_directions_for_stops api_key result.stops net).1 with
    | .error _ => .serverError
    | .ok ors => .ok result ors

/-! ### Haversine estimator (`build_ors_matrix.py`) -/

/-- The real-analytic primitives `haversine_km` uses (`math.radians`,
`math.sin`, `math.cos`, `math.atan2`, `math.sqrt`), supplied as
parameters because they are not rational-computable. -/
structure RealOps where
  radians : ℚ → ℚ
  sin : ℚ → ℚ
  cos : ℚ → ℚ
  atan2 : ℚ → ℚ → ℚ
  sqrt : ℚ → ℚ

/-- `haversine_km(lat1, lon1, lat2, lon2)` transcribed over `ops`. -/
def haversine_km (ops : RealOps) (lat1 lon1 lat2 lon2 : ℚ) : ℚ :=
  let R : ℚ := 6371
  let dlat := ops.radians (lat2 - lat1)
  let dlon := ops.radians (lon2 - lon1)
  let a := ops.sin (dlat / 2) ^ 2 +
    ops.cos (ops.radians lat1) * ops.cos (ops.radians lat2) * ops.sin (dlon / 2) ^ 2
  let c := 2 * ops.atan2 (ops.sqrt a) (ops.sqrt (1 - a))
  R * c

/-! ### Provider pair helper shared by the two management commands -/

/-- `ors_pair` (and the textually identical `_ors_distance_duration` in
the refresher command): one attempt, catching
`(HTTPError, URLError, socket.timeout, ssl.SSLError)`; a JSON decode
failure propagates; shape failures are absorbed by the inner
`except Exception`.  Returns `(distance_km, duration_min)`. -/
def ors_pair (net : NetOutcome) : Except PyExn (Option (ℚ × ℚ)) :=
  match net with
  | .httpError => .ok none
  | .urlError => .ok none
  | .timeout => .ok none
  | .sslError => .ok none
  | .badJson => .error .jsonDecode
  | .ok data =>
    match data with
    | .noFeatures => .ok none
    | .shapeError => .ok none
    | .summary distance_m duration_s => .ok (some (distance_m / 1000, duration_s / 60))

/-- `_ors_distance_duration` of the refresher command has the same body
as `ors_pair`. -/
def ors_distance_duration : NetOutcome → Except PyExn (Option (ℚ × ℚ)) :=
  ors_pair

/-- The `while attempts <= retries and pair is None` retry loop shared by
both commands: attempts are numbered from `attempt`, `remaining` calls
are still allowed, the first success wins, an exception propagates. -/
def attemptLoop {α : Type} (call : Nat → Except PyExn (Option α)) :
    Nat → Nat → Except PyExn (Option α)
  | _, 0 => .ok none
  | attempt, remaining + 1 =>
    match call attempt with
    | .error e => .error e
    | .ok (some x) => .ok (some x)
    | .ok none => attemptLoop call (attempt + 1) remaining

/-! ### Matrix builder command (`build_ors_matrix.py`) -/

/-- One element of the `results` list / `pairs` artifact. -/
structure MatrixEntry where
  fromId : Nat
  toId : Nat
  distance_km : Option ℚ
  duration_min : Option ℚ
  method : String
deriving DecidableEq

/-- Observables of one `build_ors_matrix` run: the computed entries, a
flag for the artifact actually being written, and an uncaught
exception if the run crashed. -/
structure MatrixOutcome where
  results : List MatrixEntry
  written : Bool
  exn : Option PyExn
deriving DecidableEq

/-- The index pairs the nested `for i: for j:` loops visit (`i ≠ j`),
in visit order. -/
def matrixIndexPairs (n : Nat) : List (Nat × Nat) :=
  (List.range n).flatMap (fun i =>
    (List.range n).filterMap (fun j => if i = j then none else some (i, j)))

/-- Stops ordered by `order_by("id")`. -/
def sortById (stops : List BusStop) : List BusStop :=
  stops.mergeSort (fun a b => a.id ≤ b.id)

/-- The pair-processing loop of `Command.handle`: per pair, the
retry loop against ORS when a key is configured (no call at all
otherwise), the haversine fallback, the rounded entry, and the
`count >= limit` break.  An exception aborts the run. -/
def matrixGo (ops : RealOps) (api_key : String) (retries limit : Nat)
    (net : Nat → Nat → Nat → NetOutcome) (stops : List BusStop) :
    List (Nat × Nat) → Nat → List MatrixEntry × Option PyExn
  | [], _ => ([], none)
  | (i, j) :: restPairs, count =>
    let a := stops.getD i default
    let b := stops.getD j default
    let pair : Except PyExn (Option (ℚ × ℚ)) :=
      if api_key = "" then .ok none
      else attemptLoop (fun att => ors_pair (net i j att)) 0 (retries + 1)
    match pair with
    | .error e => ([], some e)
    | .ok p =>
      let entry : MatrixEntry :=
        match p with
        | none =>
          ⟨a.id, b.id,
           some (pyRound 5 (haversine_km ops a.latitude a.longitude b.latitude b.longitude)),
           none, "haversine"⟩
        | some (dist_km, dur_min) =>
          ⟨a.id, b.id, some (pyRound 5 dist_km), some (pyRound 2 dur_min), "ors"⟩
      if limit ≠ 0 ∧ count + 1 ≥ limit then ([entry], none)
      else
        let rec' := matrixGo ops api_key retries limit net stops restPairs (count + 1)
        (entry :: rec'.1, rec'.2)

/-- `build_ors_matrix` `Command.handle`. -/
def build_ors_matrix (ops : RealOps) (api_key : String) (retries limit : Nat)
    (dry : Bool) (net : Nat → Nat → Nat → NetOutcome) (db : DB) : MatrixOutcome :=
  let stops := sortById db.stops
  let n := stops.length
  let run := matrixGo ops api_key retries limit net stops (matrixIndexPairs n) 0
  match run.2 with
  | some e => ⟨run.1, false, some e⟩
  | none => ⟨run.1, !dry, none⟩

/-! ### Edge distance refresher command (`refresh_route_distances_with_ors.py`) -/

/-- The `ors_stats.json` artifact. -/
structure RunStats where
  updated : Nat
  skipped : Nat
  timestamp : String
deriving DecidableEq

/-- Observables of one refresher run: the final edge store, the two
counters, the stats artifact (absent iff never written), and an
uncaught exception if the per-edge loop crashed. -/
structure RefreshOutcome where
  edges : List Route
  updated : Nat
  skipped : Nat
  stats : Option RunStats
  exn : Option PyExn
deriving DecidableEq

/-- The queryset the refresher iterates: optionally only edges whose
distance is not yet positive (`distance__lte=0`; `distance__isnull`
matches nothing since the field is non-nullable), optionally truncated
by `--limit`. -/
def refreshSelection (edges : List Route) (skip_existing : Bool) (limit : Nat) : List Route :=
  let qs := if skip_existing then edges.filter (fun e => e.distance ≤ 0) else edges
  if limit > 0 then qs.take limit else qs

/-- `r.save(update_fields=["distance", "duration"])`: per-record commit
into the store by primary key. -/
def saveRoute (store : List Route) (pk : Nat) (d_km dur_min : ℚ) : List Route :=
  store.map (fun x => if x.id = pk then ⟨x.id, x.start_stop, x.end_stop, d_km, some dur_min⟩ else x)

/-- The per-edge loop of the refresher `Command.handle`: retry loop, skip
on failure, per-edge commit (unless `--dry`) on success.  `idx` numbers
the processed edges so `net idx att` is the behaviour of attempt `att`
on edge number `idx`.  An uncaught exception aborts the loop, keeping
the store state reached so far. -/
def refreshGo (net : Nat → Nat → NetOutcome) (dry : Bool) (retries : Nat) :
    List Route → Nat → List Route → Nat → Nat →
    List Route × Nat × Nat × Option PyExn
  | [], _, store, upd, skp => (store, upd, skp, none)
  | e :: restEdges, idx, store, upd, skp =>
    match attemptLoop (fun att => ors_distance_duration (net idx att)) 0 (retries + 1) with
    | .error ex => (store, upd, skp, some ex)
    | .ok none => refreshGo net dry retries restEdges (idx + 1) store upd (skp + 1)
    | .ok (some (d_km, dur_min)) =>
      let store' := if dry then store else saveRoute store e.id d_km dur_min
      refreshGo net dry retries restEdges (idx + 1) store' (upd + 1) skp

/-- `refresh_route_distances_with_ors` `Command.handle`.  With no
credential the command returns before touching anything (store intact,
no stats artifact).  The stats artifact is written after the loop
unless the loop raised. -/
def refresh_route_distances_with_ors (api_key : String) (limit : Nat)
    (dry skip_existing : Bool) (retries : Nat) (ts : String)
    (net : Nat → Nat → NetOutcome) (db : DB) : RefreshOutcome :=
  if api_key = "" then ⟨db.edges, 0, 0, none, none⟩
  else
    let sel := refreshSelection db.edges skip_existing limit
    let run := refreshGo net dry retries sel 0 db.edges 0 0
    match run.2.2.2 with
    | some ex => ⟨run.1, run.2.1, run.2.2.1, none, some ex⟩
    | none => ⟨run.1, run.2.1, run.2.2.1, some ⟨run.2.1, run.2.2.1, ts⟩, none⟩

/-! ### Further specification-side definitions used by the proofs -/

/-- `x` is reachable from `origin` along persisted edges. -/
def ReachChain (edges : List Route) (origin x : Nat) : Prop :=
  ∃ p, chainOK edges p = true ∧ p.head? = some origin ∧ p.getLast? = some x

/-- The `(start_stop, end_stop)` keys of the edge store are pairwise
distinct - the `Meta.unique_together` invariant of the `Route` model. -/
def EdgeKeysNodup (edges : List Route) : Prop :=
  (edges.map (fun e => (e.start_stop, e.end_stop))).Nodup

/-- The part of `visited` that was settled strictly before `x`
(`visited` keeps the most recently settled node first). -/
def tailAfter (x : Nat) (l : List Nat) : List Nat :=
  (l.dropWhile (· ≠ x)).tail

/-- Whether the retry loop for edge number `i` of a refresher run ends
in a provider success. -/
def refreshSucceeds (net : Nat → Nat → NetOutcome) (retries : Nat) (i : Nat) : Bool :=
  match attemptLoop (fun att => ors_distance_duration (net i att)) 0 (retries + 1) with
  | .ok (some _) => true
  | _ => false

/-- Number of edges among positions `idx, …, idx + n - 1` of a refresher
run whose retry loop ends in a provider success. -/
def countSuccesses (net : Nat → Nat → NetOutcome) (retries : Nat) : Nat → Nat → Nat
  | _, 0 => 0
  | idx, n + 1 =>
    (if refreshSucceeds net retries idx then 1 else 0) + countSuccesses net retries (idx + 1) n

/-- The invariant of the Dijkstra main loop, tying the sorted heap, the
`dist` dict, the `prev` dict and the settled list together.  `origin`
is the query origin; `edges` the persisted edge set. -/
structure DijkstraInv (edges : List Route) (origin : Nat)
    (heap : List (ℚ × Nat)) (dist : List (Nat × ℚ))
    (prev : List (Nat × Option Nat)) (visited : List Nat) : Prop where
  /-- The heap is sorted for the tuple order used by `heapq`. -/
  sorted : heap.Sorted heapLe
  /-- All heap keys are non-negative. -/
  keysNonneg : ∀ p ∈ heap, 0 ≤ p.1
  /-- Every heap entry's node has a `dist` value below the entry key. -/
  heapDist : ∀ p ∈ heap, ∃ q, dictGet dist p.2 = some q ∧ q ≤ p.1
  /-- Every unsettled node with a `dist` value has a heap entry carrying
  exactly that value. -/
  fringeHeap : ∀ x q, dictGet dist x = some q → x ∉ visited → (q, x) ∈ heap
  /-- The origin's tentative distance stays `0`. -/
  origin0 : dictGet dist origin = some 0
  /-- The origin's stored predecessor stays `None`. -/
  originPrev : dictGet prev origin = some none
  /-- A node is settled at most once. -/
  visNodup : visited.Nodup
  /-- Every settled node has a `dist` value. -/
  visKeys : ∀ x ∈ visited, (dictGet dist x).isSome
  /-- Settled nodes are optimal: no chain from the origin is cheaper
  than their `dist` value. -/
  visMin : ∀ x ∈ visited, ∀ q, dictGet dist x = some q →
    ∀ p, chainOK edges p = true → p.head? = some origin → p.getLast? = some x →
      q ≤ chainCost edges p
  /-- Settled `dist` values are below every key still in the heap. -/
  popLB : ∀ p ∈ heap, ∀ v ∈ visited, ∀ q, dictGet dist v = some q → q ≤ p.1
  /-- Every edge out of a settled node has been relaxed. -/
  frontier : ∀ v ∈ visited, ∀ x w, edgeWeight edges v x = some w →
    ∃ qx qv, dictGet dist x = some qx ∧ dictGet dist v = some qv ∧ qx ≤ qv + w
  /-- Every discovered node other than the origin has a recorded
  predecessor over a persisted edge, with consistent `dist` values, and
  the predecessor was settled (before the node itself, if the node is
  settled). -/
  prevChain : ∀ x qx, dictGet dist x = some qx → x ≠ origin →
    ∃ u w qu, dictGet prev x = some (some u) ∧ edgeWeight edges u x = some w ∧
      dictGet dist u = some qu ∧ qx = qu + w ∧ u ∈ visited ∧
      (x ∈ visited → u ∈ tailAfter x visited)

/-- The invariant holding throughout the relaxation fold over the
adjacency of the just-settled node `u`, popped with key `d`
(`oldVisited` is the settled list before `u`): all `DijkstraInv`
fields over `u :: oldVisited` except the frontier completeness of `u`
itself, which only holds once the whole adjacency has been folded. -/
structure MidInv (edges : List Route) (origin : Nat) (d : ℚ) (u : Nat)
    (oldVisited : List Nat) (st : LoopState) : Prop where
  sorted : st.heap.Sorted heapLe
  keysNonneg : ∀ p ∈ st.heap, 0 ≤ p.1
  heapDist : ∀ p ∈ st.heap, ∃ q, dictGet st.dist p.2 = some q ∧ q ≤ p.1
  fringeHeap : ∀ x q, dictGet st.dist x = some q → ¬ x ∈ u :: oldVisited → (q, x) ∈ st.heap
  origin0 : dictGet st.dist origin = some 0
  originPrev : dictGet st.prev origin = some none
  distU : dictGet st.dist u = some d
  dNonneg : 0 ≤ d
  visNodup : (u :: oldVisited).Nodup
  visKeys : ∀ v ∈ u :: oldVisited, (dictGet st.dist v).isSome
  dlb : ∀ v ∈ u :: oldVisited, ∀ q, dictGet st.dist v = some q → q ≤ d
  visMin : ∀ x ∈ u :: oldVisited, ∀ q, dictGet st.dist x = some q →
    ∀ p, chainOK edges p = true → p.head? = some origin → p.getLast? = some x →
      q ≤ chainCost edges p
  popLB : ∀ p ∈ st.heap, ∀ v ∈ u :: oldVisited, ∀ q, dictGet st.dist v = some q → q ≤ p.1
  frontierOld : ∀ v ∈ oldVisited, ∀ x w, edgeWeight edges v x = some w →
    ∃ qx qv, dictGet st.dist x = some qx ∧ dictGet st.dist v = some qv ∧ qx ≤ qv + w
  prevChain : ∀ x qx, dictGet st.dist x = some qx → x ≠ origin →
    ∃ u' w qu, dictGet st.prev x = some (some u') ∧ edgeWeight edges u' x = some w ∧
      dictGet st.dist u' = some qu ∧ qx = qu + w ∧ u' ∈ u :: oldVisited ∧
      (x ∈ u :: oldVisited → u' ∈ tailAfter x (u :: oldVisited))

/-- What holds of the final `dist`/`prev` dicts when the main loop
finishes: if the destination carries a final distance `t`, then no
chain from the origin to the destination is cheaper than `t`, and the
predecessor walk reconstructs a chain from the origin to the
destination of cost exactly `t`. -/
def LoopPost (edges : List Route) (origin dest : Nat)
    (dist' : List (Nat × ℚ)) (prev' : List (Nat × Option Nat)) : Prop :=
  ∀ t, dictGet dist' dest = some t →
    (∀ p, chainOK edges p = true → p.head? = some origin → p.getLast? = some dest →
      t ≤ chainCost edges p) ∧
    (∃ L, walkPrev prev' (prev'.length + 1) dest = some L ∧
      L.head? = some dest ∧ L.getLast? = some origin ∧
      chainOK edges L.reverse = true ∧ chainCost edges L.reverse = t)

/-! ### Concrete fixtures used by witnesses and counterexamples -/

/-- The spec's scenario graph: edges A→B=1, B→C=1, A→C=5. -/
def dbScenario : DB :=
  ⟨[⟨1, "A", 0, 0⟩, ⟨2, "B", 0, 1⟩, ⟨3, "C", 1, 1⟩],
   [⟨1, 1, 2, 1, none⟩, ⟨2, 2, 3, 1, none⟩, ⟨3, 1, 3, 5, none⟩]⟩

/-- Two stops joined by one edge whose duration is 0.004 minutes. -/
def dbTinyDuration : DB :=
  ⟨[⟨1, "A", 0, 0⟩, ⟨2, "B", 0, 1⟩],
   [⟨1, 1, 2, 1, some (1 / 250)⟩]⟩

/-- Two stops joined by one edge whose duration is 1.5 minutes. -/
def dbHalfDuration : DB :=
  ⟨[⟨1, "A", 0, 0⟩, ⟨2, "B", 0, 1⟩],
   [⟨1, 1, 2, 1, some (3 / 2)⟩]⟩

/-- Two stops and no edges at all. -/
def dbNoEdges : DB :=
  ⟨[⟨1, "A", 0, 0⟩, ⟨2, "B", 0, 1⟩], []⟩

/-- Three stops for the matrix scenario. -/
def dbThreeStops : DB :=
  ⟨[⟨1, "A", 0, 0⟩, ⟨2, "B", 0, 1 / 1000⟩, ⟨3, "C", 1 / 1000, 1 / 1000⟩], []⟩

/-- An empty store. -/
def dbEmpty : DB := ⟨[], []⟩

/-- A `RealOps` instance made of simple rational functions, used to
exhibit concrete runs of the haversine fallback (chosen so that the
haversine value is exactly `1/3` km, whose 5-digit rounding differs
from it). -/
def opsTiny : RealOps :=
  ⟨id, fun _ => 0, fun _ => 0, fun _ _ => 1 / 38226, id⟩

/-! ### Basic lemmas: dict lookups, edges, chains -/

theorem dictGet_cons {κ α : Type} [DecidableEq κ] (k : κ) (v : α) (rest : List (κ × α))
    (key : κ) : dictGet ((k, v) :: rest) key = if key = k then some v else dictGet rest key :=
  rfl

theorem edgeWeight_spec {edges : List Route} {u v : Nat} {w : ℚ}
    (h : edgeWeight edges u v = some w) :
    ∃ e ∈ edges, e.start_stop = u ∧ e.end_stop = v ∧ e.distance = w := by
  unfold edgeWeight at h
  rcases Option.map_eq_some'.1 h with ⟨e, he, hd⟩
  refine ⟨e, List.mem_of_find?_eq_some he, ?_, ?_, hd⟩
  · have := List.find?_some he
    simp only [Bool.and_eq_true, beq_iff_eq] at this
    exact this.1
  · have := List.find?_some he
    simp only [Bool.and_eq_true, beq_iff_eq] at this
    exact this.2

theorem edgeWeight_nonneg {edges : List Route} (hw : ∀ e ∈ edges, 0 ≤ e.distance)
    {u v : Nat} {w : ℚ} (h : edgeWeight edges u v = some w) : 0 ≤ w := by
  rcases edgeWeight_spec h with ⟨e, he, -, -, hd⟩
  exact hd ▸ hw e he

theorem chainCost_nonneg {edges : List Route} (hw : ∀ e ∈ edges, 0 ≤ e.distance) :
    ∀ p, chainOK edges p = true → 0 ≤ chainCost edges p
  | [], _ => le_refl 0
  | [_], _ => le_refl 0
  | u :: v :: rest, h => by
    rw [chainOK, Bool.and_eq_true] at h
    rw [chainCost]
    rcases Option.isSome_iff_exists.1 h.1 with ⟨w, hw'⟩
    have h0 := edgeWeight_nonneg hw hw'
    have h1 := chainCost_nonneg hw (v :: rest) h.2
    rw [hw']
    simpa using add_nonneg h0 h1

theorem mem_build_graph {edges : List Route} {u v : Nat} {w : ℚ} :
    (v, w) ∈ build_graph edges u ↔
      ∃ e ∈ edges, e.start_stop = u ∧ e.end_stop = v ∧ e.distance = w := by
  simp only [build_graph, List.mem_map, List.mem_filter, beq_iff_eq, Prod.mk.injEq]
  constructor
  · rintro ⟨e, ⟨he, hs⟩, hv, hd⟩
    exact ⟨e, he, hs, hv, hd⟩
  · rintro ⟨e, he, hs, hv, hd⟩
    exact ⟨e, ⟨he, hs⟩, hv, hd⟩

theorem edgeWeight_of_mem {edges : List Route} (hu : EdgeKeysNodup edges)
    {e : Route} (he : e ∈ edges) :
    edgeWeight edges e.start_stop e.end_stop = some e.distance := by
  unfold edgeWeight
  have hsome : (edges.find? (fun e' =>
      e'.start_stop == e.start_stop && e'.end_stop == e.end_stop)).isSome := by
    rw [List.find?_isSome]
    exact ⟨e, he, by simp⟩
  rcases Option.isSome_iff_exists.1 hsome with ⟨e', he'⟩
  have he'mem := List.mem_of_find?_eq_some he'
  have he'p := List.find?_some he'
  simp only [Bool.and_eq_true, beq_iff_eq] at he'p
  have : e' = e :=
    List.inj_on_of_nodup_map hu he'mem he (by simp [he'p.1, he'p.2])
  rw [he', this]
  rfl

theorem mem_build_graph_iff {edges : List Route} (hu : EdgeKeysNodup edges)
    {u v : Nat} {w : ℚ} :
    (v, w) ∈ build_graph edges u ↔ edgeWeight edges u v = some w := by
  constructor
  · intro h
    rcases mem_build_graph.1 h with ⟨e, he, hs, hv, hd⟩
    have := edgeWeight_of_mem hu he
    rw [hs, hv, hd] at this
    exact this
  · intro h
    rcases edgeWeight_spec h with ⟨e, he, hs, hv, hd⟩
    exact mem_build_graph.2 ⟨e, he, hs, hv, hd⟩

theorem chainOK_append (edges : List Route) :
    ∀ (p : List Nat) (z y : Nat), p.getLast? = some z →
      chainOK edges (p ++ [y]) = (chainOK edges p && (edgeWeight edges z y).isSome)
  | [], _, _, h => by simp at h
  | [x], z, y, h => by
    simp only [List.getLast?_singleton, Option.some.injEq] at h
    subst h
    simp [chainOK]
  | a :: b :: rest, z, y, h => by
    have hlast : (b :: rest).getLast? = some z := by
      rw [List.getLast?_cons_cons] at h
      exact h
    have ih := chainOK_append edges (b :: rest) z y hlast
    simp only [List.cons_append] at ih ⊢
    rw [chainOK, chainOK, ih, Bool.and_assoc]

theorem chainCost_append (edges : List Route) :
    ∀ (p : List Nat) (z y : Nat), p.getLast? = some z →
      chainCost edges (p ++ [y]) = chainCost edges p + (edgeWeight edges z y).getD 0
  | [], _, _, h => by simp at h
  | [x], z, y, h => by
    simp only [List.getLast?_singleton, Option.some.injEq] at h
    subst h
    simp [chainCost]
  | a :: b :: rest, z, y, h => by
    have hlast : (b :: rest).getLast? = some z := by
      rw [List.getLast?_cons_cons] at h
      exact h
    have ih := chainCost_append edges (b :: rest) z y hlast
    simp only [List.cons_append] at ih ⊢
    rw [chainCost, chainCost, ih, add_assoc]

/-! ### Retry loop and refresher lemmas -/

theorem attemptLoop_all_fail {α : Type} (call : Nat → Except PyExn (Option α))
    (hfail : ∀ a, call a = .ok none) :
    ∀ att remaining, attemptLoop call att remaining = .ok none
  | _, 0 => rfl
  | att, remaining + 1 => by
    rw [attemptLoop, hfail]
    exact attemptLoop_all_fail call hfail (att + 1) remaining

theorem attemptLoop_no_error {α : Type} (call : Nat → Except PyExn (Option α))
    (hne : ∀ a, ∃ r, call a = .ok r) :
    ∀ att remaining, ∃ r, attemptLoop call att remaining = .ok r
  | _, 0 => ⟨none, rfl⟩
  | att, remaining + 1 => by
    rcases hne att with ⟨r, hr⟩
    rw [attemptLoop, hr]
    match r with
    | some x => exact ⟨some x, rfl⟩
    | none => exact attemptLoop_no_error call hne (att + 1) remaining

theorem countSuccesses_le (net : Nat → Nat → NetOutcome) (retries : Nat) :
    ∀ idx n, countSuccesses net retries idx n ≤ n
  | _, 0 => le_refl 0
  | idx, n + 1 => by
    rw [countSuccesses]
    have := countSuccesses_le net retries (idx + 1) n
    split <;> omega

theorem refreshGo_all_fail (net : Nat → Nat → NetOutcome) (dry : Bool) (retries : Nat)
    (hfail : ∀ i a, ors_distance_duration (net i a) = .ok none) :
    ∀ (l : List Route) (idx : Nat) (store : List Route) (u s : Nat),
      refreshGo net dry retries l idx store u s = (store, u, s + l.length, none)
  | [], _, _, _, _ => rfl
  | e :: rest, idx, store, u, s => by
    have hA : attemptLoop (fun att => ors_distance_duration (net idx att)) 0 (retries + 1) =
        .ok none := attemptLoop_all_fail _ (fun a => hfail idx a) 0 (retries + 1)
    rw [refreshGo, hA]
    rw [refreshGo_all_fail net dry retries hfail rest (idx + 1) store u (s + 1)]
    simp only [List.length_cons, Prod.mk.injEq, true_and, and_true]
    omega

theorem refreshGo_dry (net : Nat → Nat → NetOutcome) (retries : Nat)
    (hne : ∀ i a, ∃ r, ors_distance_duration (net i a) = .ok r) :
    ∀ (l : List Route) (idx : Nat) (store : List Route) (u s : Nat),
      refreshGo net true retries l idx store u s =
        (store, u + countSuccesses net retries idx l.length,
         s + (l.length - countSuccesses net retries idx l.length), none)
  | [], _, _, _, _ => by simp [refreshGo, countSuccesses]
  | e :: rest, idx, store, u, s => by
    rcases attemptLoop_no_error (fun att => ors_distance_duration (net idx att))
      (fun a => hne idx a) 0 (retries + 1) with ⟨r, hr⟩
    have hC := countSuccesses_le net retries (idx + 1) rest.length
    match r with
    | none =>
      have hsucc : refreshSucceeds net retries idx = false := by
        rw [refreshSucceeds, hr]
      rw [refreshGo, hr]
      rw [refreshGo_dry net retries hne rest (idx + 1) store u (s + 1)]
      rw [List.length_cons, countSuccesses, hsucc]
      simp only [Bool.false_eq_true, if_false, Prod.mk.injEq, true_and, and_true]
      refine ⟨?_, ?_⟩ <;> omega
    | some x =>
      have hsucc : refreshSucceeds net retries idx = true := by
        rw [refreshSucceeds, hr]
      rw [refreshGo, hr]
      show refreshGo net true retries rest (idx + 1) store (u + 1) s = _
      rw [refreshGo_dry net retries hne rest (idx + 1) store (u + 1) s]
      rw [List.length_cons, countSuccesses, hsucc]
      simp only [if_true, Prod.mk.injEq, true_and, and_true]
      refine ⟨?_, ?_⟩ <;> omega

/-! ### Claim theorems: provider, view and batch commands -/

/-- C6: when no provider credential is configured,
`ors_directions_for_stops` returns the `Unavailable` value (`None`)
immediately, for every stop list and every possible network behaviour,
and the request-issuing function `_ors_request` is never invoked (the
request counter is `0`). -/
theorem no_credential_no_request (stops : List StopInfo) (net : NetOutcome) :
    ors_directions_for_stops "" stops net = (.ok none, 0) := by
  simp [ors_directions_for_stops]

/-- C5 (code bug): the spec requires every provider failure mode -
including a timeout and a TLS failure - to be absorbed into the uniform
`Unavailable` value and never to abort a shortest-path query.  The
`except` clauses of `ors_directions_for_stops` only catch `HTTPError`
and `URLError`, so a raw `socket.timeout` (or `ssl.SSLError`, or a
`json.JSONDecodeError`) raised by the request propagates: here a
timeout during enrichment turns a successful core query into a server
error.  (The management commands catch `socket.timeout` and
`ssl.SSLError` explicitly, which is the intended behaviour.) -/
theorem provider_timeout_escapes :
    ors_directions_for_stops "k" [⟨1, "A", 0, 0⟩, ⟨2, "B", 0, 1⟩] .timeout =
      (.error .timeoutExn, 1) ∧
    ors_pair .badJson = .error .jsonDecode ∧
    dijkstra_shortest_path dbTinyDuration 1 2 =
      .ok ⟨[1, 2], 1, [⟨1, "A", 0, 0⟩, ⟨2, "B", 0, 1⟩], some 0⟩ ∧
    shortest_route "k" .timeout dbTinyDuration 1 2 = .serverError := by
  refine ⟨by with_unfolding_all rfl, rfl, by with_unfolding_all decide,
    by with_unfolding_all decide⟩

/-- C8: for a persisted stop `x`, `dijkstra_shortest_path x x`
immediately returns the one-node path `[x]` with total distance `0`,
and the result does not depend on the edge store at all. -/
theorem dijkstra_self_loop (db : DB) (x : Nat) (s : BusStop)
    (hs : db.stops.find? (fun t => t.id == x) = some s) :
    dijkstra_shortest_path db x x = .ok ⟨[x], 0, [stopInfoOf s], none⟩ ∧
    ∀ edges2 : List Route,
      dijkstra_shortest_path ⟨db.stops, edges2⟩ x x = dijkstra_shortest_path db x x := by
  constructor
  · simp [dijkstra_shortest_path, hs]
  · intro edges2
    simp [dijkstra_shortest_path, hs]

theorem dijkstra_self_loop_witness :
    dbScenario.stops.find? (fun t => t.id == 2) = some ⟨2, "B", 0, 1⟩ ∧
    dijkstra_shortest_path dbScenario 2 2 = .ok ⟨[2], 0, [⟨2, "B", 0, 1⟩], none⟩ ∧
    dijkstra_shortest_path ⟨dbScenario.stops, []⟩ 2 2 = dijkstra_shortest_path dbScenario 2 2 := by
  have h := dijkstra_self_loop dbScenario 2 ⟨2, "B", 0, 1⟩ (by with_unfolding_all decide)
  exact ⟨by with_unfolding_all decide, h.1, h.2 []⟩

/-- C9: for an id `x` that identifies no persisted stop,
`dijkstra_shortest_path x x` raises the unhandled
`BusStop.DoesNotExist` lookup exception instead of returning the
no-path value, so the `shortest_route` view answers with a server
error rather than the normal not-found response. -/
theorem dijkstra_self_loop_missing_stop (db : DB) (x : Nat)
    (hs : db.stops.find? (fun t => t.id == x) = none) :
    dijkstra_shortest_path db x x = .exn .doesNotExist ∧
    ∀ (api_key : String) (net : NetOutcome),
      shortest_route api_key net db x x = .serverError := by
  have h1 : dijkstra_shortest_path db x x = .exn .doesNotExist := by
    simp [dijkstra_shortest_path, hs]
  exact ⟨h1, fun api_key net => by simp [shortest_route, h1]⟩

theorem dijkstra_self_loop_missing_stop_witness :
    dbEmpty.stops.find? (fun t => t.id == 7) = none ∧
    dijkstra_shortest_path dbEmpty 7 7 = .exn .doesNotExist ∧
    shortest_route "k" .timeout dbEmpty 7 7 = .serverError := by
  have h := dijkstra_self_loop_missing_stop dbEmpty 7 (by with_unfolding_all decide)
  exact ⟨by with_unfolding_all decide, h.1, h.2 "k" .timeout⟩

/-- C7: a refresher run with a configured credential, not in dry-run
mode, in which the provider fails (returns `Unavailable`) on every
attempt for every edge, leaves every edge record untouched, counts
every processed edge as skipped, and writes the stats artifact with
`updated = 0` and `skipped` equal to the number of edges processed. -/
theorem refresher_all_unavailable (api_key : String) (limit : Nat)
    (skip_existing : Bool) (retries : Nat) (ts : String)
    (net : Nat → Nat → NetOutcome) (db : DB)
    (hkey : api_key ≠ "")
    (hfail : ∀ i a, ors_distance_duration (net i a) = .ok none) :
    refresh_route_distances_with_ors api_key limit false skip_existing retries ts net db =
      ⟨db.edges, 0, (refreshSelection db.edges skip_existing limit).length,
       some ⟨0, (refreshSelection db.edges skip_existing limit).length, ts⟩, none⟩ := by
  unfold refresh_route_distances_with_ors
  rw [if_neg hkey]
  simp only [refreshGo_all_fail net false retries hfail, Nat.zero_add]

theorem refresher_all_unavailable_witness :
    ("k" : String) ≠ "" ∧
    (∀ i a : Nat, ors_distance_duration ((fun _ _ => NetOutcome.httpError) i a) = .ok none) ∧
    refresh_route_distances_with_ors "k" 0 false false 1 "t"
        (fun _ _ => NetOutcome.httpError) dbTinyDuration =
      ⟨dbTinyDuration.edges, 0, (refreshSelection dbTinyDuration.edges false 0).length,
       some ⟨0, (refreshSelection dbTinyDuration.edges false 0).length, "t"⟩, none⟩ := by
  refine ⟨by decide, fun i a => rfl, ?_⟩
  exact refresher_all_unavailable "k" 0 false 1 "t" (fun _ _ => NetOutcome.httpError)
    dbTinyDuration (by decide) (fun i a => rfl)

/-- C10: a refresher dry run modifies no edge record, yet still counts
every provider-successful edge in `updated` and still overwrites the
stats artifact with those counters: the observability artifact changes
while reporting edges as updated that were never persisted. -/
theorem refresher_dry_run (api_key : String) (limit : Nat)
    (skip_existing : Bool) (retries : Nat) (ts : String)
    (net : Nat → Nat → NetOutcome) (db : DB)
    (hkey : api_key ≠ "")
    (hne : ∀ i a, ∃ r, ors_distance_duration (net i a) = .ok r) :
    ∃ upd skp,
      refresh_route_distances_with_ors api_key limit true skip_existing retries ts net db =
        ⟨db.edges, upd, skp, some ⟨upd, skp, ts⟩, none⟩ ∧
      upd = countSuccesses net retries 0 (refreshSelection db.edges skip_existing limit).length ∧
      upd + skp = (refreshSelection db.edges skip_existing limit).length := by
  unfold refresh_route_distances_with_ors
  rw [if_neg hkey]
  simp only [refreshGo_dry net retries hne, Nat.zero_add]
  refine ⟨_, _, rfl, rfl, ?_⟩
  have := countSuccesses_le net retries 0 (refreshSelection db.edges skip_existing limit).length
  omega

theorem refresher_dry_run_witness :
    ∃ upd skp,
      refresh_route_distances_with_ors "k" 0 true false 1 "t"
          (fun _ _ => NetOutcome.ok (.summary 1000 60)) dbTinyDuration =
        ⟨dbTinyDuration.edges, upd, skp, some ⟨upd, skp, "t"⟩, none⟩ ∧
      upd = countSuccesses (fun _ _ => NetOutcome.ok (.summary 1000 60)) 1 0
        (refreshSelection dbTinyDuration.edges false 0).length ∧
      upd + skp = (refreshSelection dbTinyDuration.edges false 0).length :=
  refresher_dry_run "k" 0 false 1 "t" (fun _ _ => NetOutcome.ok (.summary 1000 60))
    dbTinyDuration (by decide) (fun i a => ⟨some (1000 / 1000, 60 / 60), rfl⟩)

/-! ### Matrix builder lemmas and claim C4 -/

theorem matrixGo_no_key (ops : RealOps) (retries : Nat)
    (net : Nat → Nat → Nat → NetOutcome) (stops : List BusStop) :
    ∀ (pairs : List (Nat × Nat)) (count : Nat),
      matrixGo ops "" retries 0 net stops pairs count =
        (pairs.map (fun ij =>
          (⟨(stops.getD ij.1 default).id, (stops.getD ij.2 default).id,
            some (pyRound 5 (haversine_km ops
              (stops.getD ij.1 default).latitude (stops.getD ij.1 default).longitude
              (stops.getD ij.2 default).latitude (stops.getD ij.2 default).longitude)),
            none, "haversine"⟩ : MatrixEntry)), none)
  | [], _ => rfl
  | (i, j) :: rest, count => by
    have ih := matrixGo_no_key ops retries net stops rest (count + 1)
    rw [matrixGo]
    simp only [if_pos rfl, if_true, ne_eq, not_true_eq_false, false_and, if_false, ih, List.map]

/-- C4 (amended): a `build_ors_matrix` run with no credential and no
pair cap over a stop set of 3 stops computes exactly 6 entries - one
per ordered pair of distinct stops in id order - and every entry has
method `"haversine"` (the code's tag for the spec's `estimate` method),
an absent `duration_min`, and a `distance_km` equal to the
`haversine_km` distance of the pair's coordinates rounded to 5 decimal
digits.  No network call is involved and the run cannot crash. -/
theorem matrix_no_credential (ops : RealOps) (retries : Nat) (dry : Bool)
    (net : Nat → Nat → Nat → NetOutcome) (db : DB) (h3 : db.stops.length = 3) :
    (build_ors_matrix ops "" retries 0 dry net db).exn = none ∧
    (build_ors_matrix ops "" retries 0 dry net db).results.length = 6 ∧
    (build_ors_matrix ops "" retries 0 dry net db).results =
      (matrixIndexPairs 3).map (fun ij =>
        ⟨((sortById db.stops).getD ij.1 default).id,
         ((sortById db.stops).getD ij.2 default).id,
         some (pyRound 5 (haversine_km ops
           ((sortById db.stops).getD ij.1 default).latitude
           ((sortById db.stops).getD ij.1 default).longitude
           ((sortById db.stops).getD ij.2 default).latitude
           ((sortById db.stops).getD ij.2 default).longitude)),
         none, "haversine"⟩) ∧
    ∀ e ∈ (build_ors_matrix ops "" retries 0 dry net db).results,
      e.method = "haversine" ∧ e.duration_min = none := by
  have hn : (sortById db.stops).length = 3 := by
    rw [sortById, List.length_mergeSort, h3]
  have hbuild : build_ors_matrix ops "" retries 0 dry net db =
      ⟨(matrixIndexPairs 3).map (fun ij =>
        ⟨((sortById db.stops).getD ij.1 default).id,
         ((sortById db.stops).getD ij.2 default).id,
         some (pyRound 5 (haversine_km ops
           ((sortById db.stops).getD ij.1 default).latitude
           ((sortById db.stops).getD ij.1 default).longitude
           ((sortById db.stops).getD ij.2 default).latitude
           ((sortById db.stops).getD ij.2 default).longitude)),
         none, "haversine"⟩), !dry, none⟩ := by
    unfold build_ors_matrix
    simp only [hn, matrixGo_no_key ops retries net (sortById db.stops)]
  refine ⟨by rw [hbuild], by rw [hbuild]; rw [List.length_map]; decide, by rw [hbuild], ?_⟩
  intro e he
  rw [hbuild] at he
  rcases List.mem_map.1 he with ⟨ij, -, rfl⟩
  exact ⟨rfl, rfl⟩

theorem matrix_no_credential_witness :
    dbThreeStops.stops.length = 3 ∧
    (build_ors_matrix opsTiny "" 1 0 false (fun _ _ _ => .timeout) dbThreeStops).exn = none ∧
    (build_ors_matrix opsTiny "" 1 0 false (fun _ _ _ => .timeout) dbThreeStops).results.length = 6 ∧
    ∀ e ∈ (build_ors_matrix opsTiny "" 1 0 false (fun _ _ _ => .timeout) dbThreeStops).results,
      e.method = "haversine" ∧ e.duration_min = none := by
  have h := matrix_no_credential opsTiny 1 false (fun _ _ _ => .timeout) dbThreeStops (by decide)
  exact ⟨by decide, h.1, h.2.1, h.2.2.2⟩

set_option maxRecDepth 4000 in
/-- C4 counterexample: on a concrete no-credential run over 3 stops the
second computed entry carries method `"haversine"`, not the claimed
`"estimate"`, and its `distance_km` is the haversine distance rounded
to 5 digits, which differs from the exact haversine distance of the
pair's coordinates - so the claim as stated fails on this run. -/
theorem matrix_entry_counterexample :
    (build_ors_matrix opsTiny "" 1 0 false (fun _ _ _ => .timeout) dbThreeStops).results[1]? =
      some ⟨1, 3, some (33333 / 100000), none, "haversine"⟩ ∧
    ("haversine" : String) ≠ "estimate" ∧
    haversine_km opsTiny 0 0 (1 / 1000) (1 / 1000) = 1 / 3 ∧
    (33333 / 100000 : ℚ) ≠ 1 / 3 ∧
    some (33333 / 100000 : ℚ) =
      some (pyRound 5 (haversine_km opsTiny 0 0 (1 / 1000) (1 / 1000))) := by
  have hhav : haversine_km opsTiny 0 0 (1 / 1000) (1 / 1000) = 1 / 3 := by
    with_unfolding_all decide
  have hpr : pyRound 5 ((1 : ℚ) / 3) = 33333 / 100000 := by
    rw [pyRound, roundHalfEven]
    norm_num
    rw [round_eq]
    norm_num
  have hn : (sortById dbThreeStops.stops).length = 3 := by
    rw [sortById, List.length_mergeSort]
    rfl
  have hres : (build_ors_matrix opsTiny "" 1 0 false (fun _ _ _ => .timeout) dbThreeStops).results =
      (matrixIndexPairs 3).map (fun ij =>
        (⟨((sortById dbThreeStops.stops).getD ij.1 default).id,
          ((sortById dbThreeStops.stops).getD ij.2 default).id,
          some (pyRound 5 (haversine_km opsTiny
            ((sortById dbThreeStops.stops).getD ij.1 default).latitude
            ((sortById dbThreeStops.stops).getD ij.1 default).longitude
            ((sortById dbThreeStops.stops).getD ij.2 default).latitude
            ((sortById dbThreeStops.stops).getD ij.2 default).longitude)),
          none, "haversine"⟩ : MatrixEntry)) := by
    unfold build_ors_matrix
    simp only [hn, matrixGo_no_key]
  refine ⟨?_, by decide, hhav, by norm_num, by rw [hhav, hpr]⟩
  rw [hres, List.getElem?_map]
  have hij : (matrixIndexPairs 3)[1]? = some (0, 2) := by decide
  rw [hij, Option.map_some']
  have hsort : sortById dbThreeStops.stops = dbThreeStops.stops := by
    with_unfolding_all decide
  rw [hsort]
  have h0 : dbThreeStops.stops.getD 0 default = ⟨1, "A", 0, 0⟩ := rfl
  have h2 : dbThreeStops.stops.getD 2 default = ⟨3, "C", 1 / 1000, 1 / 1000⟩ := rfl
  rw [h0, h2, hhav, hpr]

/-! ### Duration aggregation lemmas (claim C2) -/

theorem dictGet_append {κ α : Type} [DecidableEq κ] :
    ∀ (A B : List (κ × α)) (k : κ),
      dictGet (A ++ B) k = (dictGet A k).or (dictGet B k)
  | [], _, _ => rfl
  | (k0, v0) :: rest, B, k => by
    by_cases h : k = k0
    · simp [dictGet, h]
    · simp [dictGet, h, dictGet_append rest B k]

theorem dictGet_eq_none {κ α : Type} [DecidableEq κ] :
    ∀ (l : List (κ × α)) (k : κ), k ∉ l.map Prod.fst → dictGet l k = none
  | [], _, _ => rfl
  | (k0, v0) :: rest, k, h => by
    simp only [List.map_cons, List.mem_cons, not_or] at h
    rw [dictGet, if_neg h.1]
    exact dictGet_eq_none rest k h.2

theorem dictGet_reverse {κ α : Type} [DecidableEq κ] :
    ∀ (l : List (κ × α)), (l.map Prod.fst).Nodup → ∀ k, dictGet l.reverse k = dictGet l k
  | [], _, _ => rfl
  | (k0, v0) :: rest, hnd, k => by
    simp only [List.map_cons, List.nodup_cons] at hnd
    rw [List.reverse_cons, dictGet_append, dictGet_reverse rest hnd.2 k]
    by_cases h : k = k0
    · subst h
      rw [dictGet_eq_none rest k hnd.1]
      simp [dictGet]
    · rw [dictGet_cons, if_neg h]
      rw [dictGet_cons, if_neg h]
      exact Option.or_none

theorem durMap_foldl :
    ∀ (routes : List Route) (m : List ((Nat × Nat) × Option ℚ)),
      routes.foldl (fun m r => ((r.start_stop, r.end_stop), r.duration) :: m) m =
        (routes.map (fun r => ((r.start_stop, r.end_stop), r.duration))).reverse ++ m
  | [], _ => rfl
  | r :: rest, m => by
    rw [List.foldl_cons, durMap_foldl rest, List.map_cons, List.reverse_cons, List.append_assoc]
    rfl

theorem find?_cons_eq {α : Type} (p : α → Bool) (a : α) (l : List α) :
    List.find? p (a :: l) = if p a then some a else List.find? p l := by
  by_cases h : p a = true
  · rw [if_pos h, List.find?_cons_of_pos _ h]
  · rw [if_neg h, List.find?_cons_of_neg _ h]

theorem dictGet_routes_map :
    ∀ (l : List Route) (u v : Nat),
      dictGet (l.map (fun r => ((r.start_stop, r.end_stop), r.duration))) (u, v) =
        (l.find? (fun e => e.start_stop == u && e.end_stop == v)).map (·.duration)
  | [], _, _ => rfl
  | r :: rest, u, v => by
    rw [List.map_cons, dictGet_cons, find?_cons_eq]
    by_cases h : (u, v) = (r.start_stop, r.end_stop)
    · have hp : (r.start_stop == u && r.end_stop == v) = true := by
        rw [Prod.ext_iff] at h
        simp only [Bool.and_eq_true, beq_iff_eq]
        exact ⟨h.1.symm, h.2.symm⟩
      rw [if_pos h, if_pos hp]
      rfl
    · have hp : ¬(r.start_stop == u && r.end_stop == v) = true := by
        simp only [Bool.and_eq_true, beq_iff_eq]
        rw [Prod.ext_iff] at h
        intro hc
        exact h ⟨hc.1.symm, hc.2.symm⟩
      rw [if_neg h, if_neg hp]
      exact dictGet_routes_map rest u v

theorem find?_filter {α : Type} (p q : α → Bool) (himp : ∀ x, p x = true → q x = true) :
    ∀ l : List α, (l.filter q).find? p = l.find? p
  | [] => rfl
  | x :: rest => by
    by_cases hq : q x = true
    · rw [List.filter_cons_of_pos hq]
      by_cases hp : p x = true
      · rw [List.find?_cons_of_pos _ hp, List.find?_cons_of_pos _ hp]
      · rw [List.find?_cons_of_neg _ hp, List.find?_cons_of_neg _ hp]
        exact find?_filter p q himp rest
    · rw [List.filter_cons_of_neg hq]
      have hp : ¬p x = true := fun hc => hq (himp x hc)
      rw [List.find?_cons_of_neg _ hp]
      exact find?_filter p q himp rest

/-- For any consecutive pair of the processed path, the duration dict
built by `computeDuration` looks up exactly the (unique) store edge for
that pair. -/
theorem dictGet_durMap (edges : List Route) (hu : EdgeKeysNodup edges)
    (pairs : List (Nat × Nat)) (u v : Nat) (hmem : (u, v) ∈ pairs) :
    dictGet ((edges.filter (fun e =>
        (pairs.map (·.1)).contains e.start_stop && (pairs.map (·.2)).contains e.end_stop)).foldl
      (fun m r => ((r.start_stop, r.end_stop), r.duration) :: m)
      ([] : List ((Nat × Nat) × Option ℚ))) (u, v) =
      (edges.find? (fun e => e.start_stop == u && e.end_stop == v)).map (·.duration) := by
  set q : Route → Bool := fun e =>
    (pairs.map (·.1)).contains e.start_stop && (pairs.map (·.2)).contains e.end_stop with hq
  rw [durMap_foldl, List.append_nil]
  have hnd : (((edges.filter q).map
      (fun r => ((r.start_stop, r.end_stop), r.duration))).map Prod.fst).Nodup := by
    have h1 : ((edges.filter q).map
        (fun r => ((r.start_stop, r.end_stop), r.duration))).map Prod.fst =
        (edges.filter q).map (fun e => (e.start_stop, e.end_stop)) := by
      rw [List.map_map]
      rfl
    rw [h1]
    exact List.Nodup.sublist ((List.filter_sublist edges).map _) hu
  rw [dictGet_reverse _ hnd, dictGet_routes_map]
  have himp : ∀ e : Route, (e.start_stop == u && e.end_stop == v) = true → q e = true := by
    intro e he
    simp only [Bool.and_eq_true, beq_iff_eq] at he
    rw [hq]
    simp only [Bool.and_eq_true, List.contains_eq_any_beq, List.any_eq_true]
    refine ⟨⟨u, List.mem_map.2 ⟨(u, v), hmem, rfl⟩, by simp [he.1]⟩,
      ⟨v, List.mem_map.2 ⟨(u, v), hmem, rfl⟩, by simp [he.2]⟩⟩
  rw [find?_filter _ q himp edges]

theorem sumDurations_spec (edges : List Route)
    (dur_map : List ((Nat × Nat) × Option ℚ)) :
    ∀ q : List Nat,
      (∀ a b, (a, b) ∈ q.zip q.tail →
        dictGet dur_map (a, b) =
          (edges.find? (fun e => e.start_stop == a && e.end_stop == b)).map (·.duration)) →
      ∀ acc, sumDurations dur_map acc (q.zip q.tail) =
        (specDurationSum edges q).map (acc + ·)
  | [], _, acc => by simp [sumDurations, specDurationSum]
  | [x], _, acc => by simp [sumDurations, specDurationSum]
  | a :: b :: rest, hdict, acc => by
    have hzip : (a :: b :: rest).zip (a :: b :: rest).tail =
        (a, b) :: ((b :: rest).zip (b :: rest).tail) := rfl
    rw [hzip, sumDurations]
    have hget := hdict a b (by rw [hzip]; exact List.mem_cons_self _ _)
    rw [hget]
    rw [specDurationSum]
    have hih := sumDurations_spec edges dur_map (b :: rest)
      (fun x y hxy => hdict x y (by rw [hzip]; exact List.mem_cons_of_mem _ hxy))
    cases hfind : edges.find? (fun e => e.start_stop == a && e.end_stop == b) with
    | none =>
      have hdur : edgeDuration edges a b = none := by
        rw [edgeDuration, hfind]
        rfl
      rw [hdur]
      rfl
    | some e =>
      have hdur : edgeDuration edges a b = e.duration := by
        rw [edgeDuration, hfind]
        rfl
      rw [hdur]
      simp only [Option.map_some', Option.getD_some]
      cases hd : e.duration with
      | none => rfl
      | some dv =>
        cases hs : specDurationSum edges (b :: rest) with
        | none => simp only [hih (acc + dv), hs, Option.map_none']
        | some y =>
          simp only [hih (acc + dv), hs, Option.map_some']
          simp [add_assoc]

/-- `computeDuration` computes exactly the per-edge duration sum of the
path, rounded to two digits, and is absent exactly when some edge
duration is absent. -/
theorem computeDuration_spec (edges : List Route) (hu : EdgeKeysNodup edges) :
    ∀ p : List Nat, 2 ≤ p.length →
      computeDuration edges p = (specDurationSum edges p).map (pyRound 2)
  | [], h => by simp at h
  | [x], h => by simp at h
  | a :: b :: rest, _ => by
    rw [computeDuration]
    have hzip : (a :: b :: rest).zip (a :: b :: rest).tail =
        (a, b) :: ((b :: rest).zip (b :: rest).tail) := rfl
    simp only [hzip, List.isEmpty_cons, if_false, Bool.false_eq_true]
    rw [← hzip]
    rw [sumDurations_spec edges _ (a :: b :: rest)
      (fun x y hxy => dictGet_durMap edges hu _ x y hxy) 0]
    rw [Option.map_map]
    refine congrArg (fun f => Option.map f (specDurationSum edges (a :: b :: rest))) ?_
    funext x
    simp

/-- Inverting a successful `dijkstra_shortest_path` run with distinct
endpoints: the main loop finished, the destination has a final
distance, the predecessor walk succeeded, the stop details resolved,
and the result dict is assembled from them. -/
theorem dijkstra_ok_inversion (db : DB) (o d : Nat) (r : PathResult)
    (hne : o ≠ d)
    (hr : dijkstra_shortest_path db o d = .ok r) :
    ∃ dist prev total rev ordered,
      dijkstraLoop (build_graph db.edges) d (dijkstraFuel db.edges o)
        [(0, o)] [(o, 0)] [(o, none)] [] = some (dist, prev) ∧
      dictGet dist d = some total ∧
      walkPrev prev (prev.length + 1) d = some rev ∧
      detailedStops db.stops rev.reverse = some ordered ∧
      r = ⟨rev.reverse, total, ordered, computeDuration db.edges rev.reverse⟩ := by
  simp only [dijkstra_shortest_path, if_neg hne] at hr
  split at hr
  · cases hr
  · rename_i dist prev hloop
    split at hr
    · cases hr
    · rename_i total htotal
      split at hr
      · cases hr
      · rename_i rev hwalk
        split at hr
        · cases hr
        · rename_i ordered hstops
          injection hr with hr
          exact ⟨dist, prev, total, rev, ordered, hloop, htotal, hwalk, hstops, hr.symm⟩

/-- C2 (amended): on every successful query with at least two stops and
a store satisfying the `unique_together` key invariant, the
`total_duration_min` field is present iff every consecutive edge of the
returned path has a recorded duration, and when present it equals the
sum of those durations rounded to two decimal digits (never a partial
sum). -/
theorem total_duration_field (db : DB) (o d : Nat) (r : PathResult)
    (hu : EdgeKeysNodup db.edges)
    (hr : dijkstra_shortest_path db o d = .ok r)
    (hlen : 2 ≤ r.path.length) :
    r.total_duration_min = (specDurationSum db.edges r.path).map (pyRound 2) := by
  by_cases hne : o = d
  · subst hne
    rw [dijkstra_shortest_path, if_pos rfl] at hr
    cases hfind : db.stops.find? (fun s => s.id == o) with
    | none => rw [hfind] at hr; cases hr
    | some s =>
      rw [hfind] at hr
      injection hr with hr
      rw [← hr] at hlen
      simp at hlen
  · rcases dijkstra_ok_inversion db o d r hne hr with
      ⟨dist, prev, total, rev, ordered, -, -, -, -, hre⟩
    subst hre
    exact computeDuration_spec db.edges hu rev.reverse (by simpa using hlen)

theorem total_duration_field_witness :
    EdgeKeysNodup dbHalfDuration.edges ∧
    dijkstra_shortest_path dbHalfDuration 1 2 =
      .ok ⟨[1, 2], 1, [⟨1, "A", 0, 0⟩, ⟨2, "B", 0, 1⟩], some (3 / 2)⟩ ∧
    (⟨[1, 2], 1, [⟨1, "A", 0, 0⟩, ⟨2, "B", 0, 1⟩], some (3 / 2)⟩ :
        PathResult).total_duration_min =
      (specDurationSum dbHalfDuration.edges [1, 2]).map (pyRound 2) := by
  have h1 : EdgeKeysNodup dbHalfDuration.edges := by
    unfold EdgeKeysNodup
    decide
  have h2 : dijkstra_shortest_path dbHalfDuration 1 2 =
      .ok ⟨[1, 2], 1, [⟨1, "A", 0, 0⟩, ⟨2, "B", 0, 1⟩], some (3 / 2)⟩ := by
    with_unfolding_all decide
  exact ⟨h1, h2, total_duration_field dbHalfDuration 1 2 _ h1 h2 (by decide)⟩

/-- C2 counterexample: a successful two-stop query whose single edge
has duration `0.004` minutes returns `total_duration_min = 0` (the
two-digit rounding of the sum), while the sum of the edge durations is
`1/250 ≠ 0` - so "equals the sum of those durations" fails as stated. -/
theorem total_duration_rounding_counterexample :
    dijkstra_shortest_path dbTinyDuration 1 2 =
      .ok ⟨[1, 2], 1, [⟨1, "A", 0, 0⟩, ⟨2, "B", 0, 1⟩], some 0⟩ ∧
    specDurationSum dbTinyDuration.edges [1, 2] = some (1 / 250) ∧
    some (0 : ℚ) ≠ some (1 / 250 : ℚ) := by
  refine ⟨by with_unfolding_all decide, by with_unfolding_all decide, by norm_num⟩

/-! ### Reachability soundness of the main loop (claim C3) -/

theorem ReachChain.snoc (edges : List Route) (origin u v : Nat)
    (hedge : ∃ e ∈ edges, e.start_stop = u ∧ e.end_stop = v)
    (h : ReachChain edges origin u) : ReachChain edges origin v := by
  rcases h with ⟨p, hOK, hh, hl⟩
  refine ⟨p ++ [v], ?_, ?_, ?_⟩
  · rw [chainOK_append edges p u v hl, hOK]
    have hfind : (edges.find? (fun e' => e'.start_stop == u && e'.end_stop == v)).isSome := by
      rw [List.find?_isSome]
      rcases hedge with ⟨e, he, hs, hend⟩
      exact ⟨e, he, by simp [hs, hend]⟩
    rw [edgeWeight]
    simpa using hfind
  · cases p with
    | nil => simp at hh
    | cons a tl => simpa using hh
  · exact List.getLast?_concat p

theorem relaxStep_eq_of_none (d : ℚ) (u : Nat) (st : LoopState) (vw : Nat × ℚ)
    (hc : dictGet st.dist vw.1 = none) :
    relaxStep d u st vw =
      ⟨List.orderedInsert heapLe (d + vw.2, vw.1) st.heap,
       (vw.1, d + vw.2) :: st.dist, (vw.1, some u) :: st.prev⟩ := by
  simp only [relaxStep, hc]

theorem relaxStep_eq_of_lt (d : ℚ) (u : Nat) (st : LoopState) (vw : Nat × ℚ) (dv : ℚ)
    (hc : dictGet st.dist vw.1 = some dv) (halt : d + vw.2 < dv) :
    relaxStep d u st vw =
      ⟨List.orderedInsert heapLe (d + vw.2, vw.1) st.heap,
       (vw.1, d + vw.2) :: st.dist, (vw.1, some u) :: st.prev⟩ := by
  simp only [relaxStep, hc, if_pos halt]

theorem relaxStep_eq_of_ge (d : ℚ) (u : Nat) (st : LoopState) (vw : Nat × ℚ) (dv : ℚ)
    (hc : dictGet st.dist vw.1 = some dv) (halt : ¬ d + vw.2 < dv) :
    relaxStep d u st vw = st := by
  simp only [relaxStep, hc, if_neg halt]

theorem relaxStep_reach (edges : List Route) (origin : Nat) (d : ℚ) (u : Nat)
    (st : LoopState) (vw : Nat × ℚ)
    (hedge : ∃ e ∈ edges, e.start_stop = u ∧ e.end_stop = vw.1)
    (hreachu : ReachChain edges origin u)
    (H1 : ∀ p ∈ st.heap, (dictGet st.dist p.2).isSome)
    (H2 : ∀ x, (dictGet st.dist x).isSome → ReachChain edges origin x) :
    (∀ p ∈ (relaxStep d u st vw).heap, (dictGet (relaxStep d u st vw).dist p.2).isSome) ∧
    (∀ x, (dictGet (relaxStep d u st vw).dist x).isSome → ReachChain edges origin x) := by
  have hupd :
      (∀ p ∈ List.orderedInsert heapLe (d + vw.2, vw.1) st.heap,
        (dictGet ((vw.1, d + vw.2) :: st.dist) p.2).isSome) ∧
      (∀ x, (dictGet ((vw.1, d + vw.2) :: st.dist) x).isSome →
        ReachChain edges origin x) := by
    constructor
    · intro p hp
      rcases (List.mem_orderedInsert heapLe).1 hp with hp | hp
      · rw [hp, dictGet_cons, if_pos rfl]
        rfl
      · rw [dictGet_cons]
        by_cases hx : p.2 = vw.1
        · rw [if_pos hx]
          rfl
        · rw [if_neg hx]
          exact H1 p hp
    · intro x hx
      rw [dictGet_cons] at hx
      by_cases hxv : x = vw.1
      · rw [hxv]
        exact ReachChain.snoc edges origin u vw.1 hedge hreachu
      · rw [if_neg hxv] at hx
        exact H2 x hx
  cases hc : dictGet st.dist vw.1 with
  | none =>
    rw [relaxStep_eq_of_none d u st vw hc]
    exact hupd
  | some dv =>
    by_cases halt : d + vw.2 < dv
    · rw [relaxStep_eq_of_lt d u st vw dv hc halt]
      exact hupd
    · rw [relaxStep_eq_of_ge d u st vw dv hc halt]
      exact ⟨H1, H2⟩

theorem relaxNeighbors_reach (edges : List Route) (origin : Nat) (d : ℚ) (u : Nat)
    (hreachu : ReachChain edges origin u) :
    ∀ (nbrs : List (Nat × ℚ)),
      (∀ vw ∈ nbrs, ∃ e ∈ edges, e.start_stop = u ∧ e.end_stop = vw.1) →
      ∀ st : LoopState,
        (∀ p ∈ st.heap, (dictGet st.dist p.2).isSome) →
        (∀ x, (dictGet st.dist x).isSome → ReachChain edges origin x) →
        (∀ p ∈ (relaxNeighbors d u nbrs st).heap,
          (dictGet (relaxNeighbors d u nbrs st).dist p.2).isSome) ∧
        (∀ x, (dictGet (relaxNeighbors d u nbrs st).dist x).isSome →
          ReachChain edges origin x)
  | [], _, st, H1, H2 => ⟨H1, H2⟩
  | vw :: rest, hnb, st, H1, H2 => by
    have hstep := relaxStep_reach edges origin d u st vw
      (hnb vw (List.mem_cons_self _ _)) hreachu H1 H2
    exact relaxNeighbors_reach edges origin d u hreachu rest
      (fun x hx => hnb x (List.mem_cons_of_mem _ hx)) (relaxStep d u st vw)
      hstep.1 hstep.2

theorem reach_loop (edges : List Route) (origin dest : Nat) :
    ∀ (fuel : Nat) (heap : List (ℚ × Nat)) (dist : List (Nat × ℚ))
      (prev : List (Nat × Option Nat)) (visited : List Nat)
      (dist' : List (Nat × ℚ)) (prev' : List (Nat × Option Nat)),
      (∀ p ∈ heap, (dictGet dist p.2).isSome) →
      (∀ x, (dictGet dist x).isSome → ReachChain edges origin x) →
      dijkstraLoop (build_graph edges) dest fuel heap dist prev visited = some (dist', prev') →
      ∀ x, (dictGet dist' x).isSome → ReachChain edges origin x
  | 0, _, _, _, _, _, _, _, _, h => by cases h
  | fuel + 1, [], dist, prev, visited, dist', prev', H1, H2, h => by
    rw [dijkstraLoop] at h
    injection h with h
    injection h with h1 h2
    rw [← h1]
    exact H2
  | fuel + 1, (d, u) :: rest, dist, prev, visited, dist', prev', H1, H2, h => by
    rw [dijkstraLoop] at h
    by_cases hv : u ∈ visited
    · rw [if_pos hv] at h
      exact reach_loop edges origin dest fuel rest dist prev visited dist' prev'
        (fun p hp => H1 p (List.mem_cons_of_mem _ hp)) H2 h
    · rw [if_neg hv] at h
      by_cases hd : u = dest
      · rw [if_pos hd] at h
        injection h with h
        injection h with h1 h2
        rw [← h1]
        exact H2
      · rw [if_neg hd] at h
        have hreachu : ReachChain edges origin u :=
          H2 u (H1 (d, u) (List.mem_cons_self _ _))
        have hrlx := relaxNeighbors_reach edges origin d u hreachu
          (build_graph edges u)
          (fun vw hvw => by
            rcases mem_build_graph.1 (by exact hvw) with ⟨e, he, hs, hend, -⟩
            exact ⟨e, he, hs, hend⟩)
          ⟨rest, dist, prev⟩
          (fun p hp => H1 p (List.mem_cons_of_mem _ hp)) H2
        exact reach_loop edges origin dest fuel _ _ _ _ dist' prev' hrlx.1 hrlx.2 h

/-! ### Fuel sufficiency of the main loop (claim C3) -/

theorem build_graph_length_le (edges : List Route) (u : Nat) :
    (build_graph edges u).length ≤ edges.length := by
  rw [build_graph]
  rw [List.length_map]
  exact List.length_filter_le _ _

theorem relaxStep_heap_length (d : ℚ) (u : Nat) (st : LoopState) (vw : Nat × ℚ) :
    (relaxStep d u st vw).heap.length ≤ st.heap.length + 1 := by
  cases hc : dictGet st.dist vw.1 with
  | none =>
    rw [relaxStep_eq_of_none d u st vw hc]
    simp [List.orderedInsert_length]
  | some dv =>
    by_cases halt : d + vw.2 < dv
    · rw [relaxStep_eq_of_lt d u st vw dv hc halt]
      simp [List.orderedInsert_length]
    · rw [relaxStep_eq_of_ge d u st vw dv hc halt]
      omega

theorem relaxStep_heap_mem (d : ℚ) (u : Nat) (st : LoopState) (vw : Nat × ℚ) :
    ∀ p ∈ (relaxStep d u st vw).heap, p ∈ st.heap ∨ p.2 = vw.1 := by
  intro p hp
  cases hc : dictGet st.dist vw.1 with
  | none =>
    rw [relaxStep_eq_of_none d u st vw hc] at hp
    rcases (List.mem_orderedInsert heapLe).1 hp with h | h
    · right; rw [h]
    · left; exact h
  | some dv =>
    by_cases halt : d + vw.2 < dv
    · rw [relaxStep_eq_of_lt d u st vw dv hc halt] at hp
      rcases (List.mem_orderedInsert heapLe).1 hp with h | h
      · right; rw [h]
      · left; exact h
    · rw [relaxStep_eq_of_ge d u st vw dv hc halt] at hp
      left; exact hp

theorem relaxNeighbors_heap_length (d : ℚ) (u : Nat) :
    ∀ (nbrs : List (Nat × ℚ)) (st : LoopState),
      (relaxNeighbors d u nbrs st).heap.length ≤ st.heap.length + nbrs.length
  | [], st => le_refl _
  | vw :: rest, st => by
    have h1 := relaxNeighbors_heap_length d u rest (relaxStep d u st vw)
    have h2 := relaxStep_heap_length d u st vw
    show (relaxNeighbors d u rest (relaxStep d u st vw)).heap.length ≤ _
    simp only [List.length_cons]
    omega

theorem relaxNeighbors_heap_mem (d : ℚ) (u : Nat) :
    ∀ (nbrs : List (Nat × ℚ)) (st : LoopState) (p : ℚ × Nat),
      p ∈ (relaxNeighbors d u nbrs st).heap → p ∈ st.heap ∨ p.2 ∈ nbrs.map (·.1)
  | [], st, p, hp => Or.inl hp
  | vw :: rest, st, p, hp => by
    rcases relaxNeighbors_heap_mem d u rest (relaxStep d u st vw) p hp with h | h
    · rcases relaxStep_heap_mem d u st vw p h with h' | h'
      · exact Or.inl h'
      · right
        rw [List.map_cons, h']
        exact List.mem_cons_self _ _
    · right
      rw [List.map_cons]
      exact List.mem_cons_of_mem _ h

theorem build_graph_target_mem (edges : List Route) (u : Nat) :
    ∀ vw ∈ build_graph edges u, vw.1 ∈ edges.map (·.end_stop) := by
  intro vw hvw
  rcases mem_build_graph.1 hvw with ⟨e, he, -, hend, -⟩
  exact List.mem_map.2 ⟨e, he, hend⟩

theorem suff_loop (edges : List Route) (origin dest : Nat) :
    ∀ (fuel : Nat) (heap : List (ℚ × Nat)) (dist : List (Nat × ℚ))
      (prev : List (Nat × Option Nat)) (visited : List Nat),
      (∀ p ∈ heap, p.2 ∈ insert origin (edges.map (·.end_stop)).toFinset) →
      ((insert origin (edges.map (·.end_stop)).toFinset).filter
          (fun x => ¬ x ∈ visited)).card * (edges.length + 1) + heap.length + 1 ≤ fuel →
      dijkstraLoop (build_graph edges) dest fuel heap dist prev visited ≠ none
  | 0, heap, _, _, visited, _, hfuel => by omega
  | fuel + 1, [], _, _, _, _, _ => by
    rw [dijkstraLoop]
    simp
  | fuel + 1, (d, u) :: rest, dist, prev, visited, hN, hfuel => by
    rw [dijkstraLoop]
    by_cases hv : u ∈ visited
    · rw [if_pos hv]
      refine suff_loop edges origin dest fuel rest dist prev visited
        (fun p hp => hN p (List.mem_cons_of_mem _ hp)) ?_
      simp only [List.length_cons] at hfuel
      omega
    · rw [if_neg hv]
      by_cases hd : u = dest
      · rw [if_pos hd]
        simp
      · rw [if_neg hd]
        have hu : u ∈ insert origin (edges.map (·.end_stop)).toFinset :=
          hN (d, u) (List.mem_cons_self _ _)
        have hcard :
            ((insert origin (edges.map (·.end_stop)).toFinset).filter
              (fun x => ¬ x ∈ u :: visited)).card + 1 =
            ((insert origin (edges.map (·.end_stop)).toFinset).filter
              (fun x => ¬ x ∈ visited)).card := by
          have hset : (insert origin (edges.map (·.end_stop)).toFinset).filter
              (fun x => ¬ x ∈ u :: visited) =
              ((insert origin (edges.map (·.end_stop)).toFinset).filter
                (fun x => ¬ x ∈ visited)).erase u := by
            ext x
            simp only [Finset.mem_filter, Finset.mem_erase, List.mem_cons, not_or]
            tauto
          have humem : u ∈ (insert origin (edges.map (·.end_stop)).toFinset).filter
              (fun x => ¬ x ∈ visited) := Finset.mem_filter.2 ⟨hu, hv⟩
          rw [hset, Finset.card_erase_of_mem humem]
          have := Finset.card_pos.2 ⟨u, humem⟩
          omega
        set st := relaxNeighbors d u (build_graph edges u) ⟨rest, dist, prev⟩ with hst
        refine suff_loop edges origin dest fuel st.heap st.dist st.prev (u :: visited)
          ?_ ?_
        · intro p hp
          rcases relaxNeighbors_heap_mem d u (build_graph edges u) ⟨rest, dist, prev⟩ p hp
            with h | h
          · exact hN p (List.mem_cons_of_mem _ h)
          · rcases List.mem_map.1 h with ⟨vw, hvw, hpv⟩
            have := build_graph_target_mem edges u vw hvw
            rw [hpv] at this
            exact Finset.mem_insert_of_mem (List.mem_toFinset.2 this)
        · have hlen := relaxNeighbors_heap_length d u (build_graph edges u) ⟨rest, dist, prev⟩
          have hadj := build_graph_length_le edges u
          simp only [List.length_cons] at hfuel
          have hsh : st.heap.length ≤ rest.length + edges.length := by
            rw [hst]
            calc (relaxNeighbors d u (build_graph edges u)
                ⟨rest, dist, prev⟩).heap.length
                ≤ rest.length + (build_graph edges u).length := hlen
              _ ≤ rest.length + edges.length := by omega
          rw [← hcard, Nat.succ_mul] at hfuel
          omega

/-- C3: for distinct endpoints with no directed chain of persisted
edges from origin to destination, `dijkstra_shortest_path` returns the
`None` no-path value (never a path, an exception, or non-termination),
and the `shortest_route` view maps that outcome to the normal
not-found response, not a server error. -/
theorem unreachable_noPath (db : DB) (o d : Nat) (hne : o ≠ d)
    (hnoreach : ¬ ReachChain db.edges o d) :
    dijkstra_shortest_path db o d = .noPath ∧
    ∀ (api_key : String) (net : NetOutcome),
      shortest_route api_key net db o d = .notFound := by
  obtain ⟨res, hres⟩ : ∃ res,
      dijkstraLoop (build_graph db.edges) d (dijkstraFuel db.edges o)
        [(0, o)] [(o, 0)] [(o, none)] [] = some res := by
    have hsuff := suff_loop db.edges o d (dijkstraFuel db.edges o)
      [(0, o)] [(o, 0)] [(o, none)] []
      (by
        intro p hp
        simp only [List.mem_singleton] at hp
        rw [hp]
        exact Finset.mem_insert_self _ _)
      (by
        rw [dijkstraFuel]
        have hfilter : ((insert o (db.edges.map (·.end_stop)).toFinset).filter
            (fun x => ¬ x ∈ ([] : List Nat))) =
            insert o (db.edges.map (·.end_stop)).toFinset := by
          refine Finset.filter_true_of_mem ?_
          intro x _
          simp
        rw [hfilter]
        simp)
    cases h : dijkstraLoop (build_graph db.edges) d (dijkstraFuel db.edges o)
        [(0, o)] [(o, 0)] [(o, none)] [] with
    | none => exact absurd h hsuff
    | some res => exact ⟨res, rfl⟩
  have hdx : dictGet res.1 d = none := by
    cases hd : dictGet res.1 d with
    | none => rfl
    | some q =>
      refine absurd (reach_loop db.edges o d (dijkstraFuel db.edges o)
        [(0, o)] [(o, 0)] [(o, none)] [] res.1 res.2
        (by
          intro p hp
          simp only [List.mem_singleton] at hp
          rw [hp, dictGet_cons, if_pos rfl]
          rfl)
        (by
          intro x hx
          rw [dictGet_cons] at hx
          by_cases hxo : x = o
          · exact ⟨[x], rfl, by simp [hxo], by simp [hxo]⟩
          · rw [if_neg hxo] at hx
            simp [dictGet] at hx)
        (by rw [hres]) d (by rw [hd]; rfl)) hnoreach
  have h1 : dijkstra_shortest_path db o d = .noPath := by
    simp only [dijkstra_shortest_path, if_neg hne, hres, hdx]
  exact ⟨h1, fun api_key net => by simp [shortest_route, h1]⟩

theorem unreachable_noPath_witness :
    (1 : Nat) ≠ 2 ∧
    dijkstra_shortest_path dbNoEdges 1 2 = .noPath ∧
    shortest_route "k" .timeout dbNoEdges 1 2 = .notFound := by
  have hnoreach : ¬ ReachChain dbNoEdges.edges 1 2 := by
    rintro ⟨p, hOK, hh, hl⟩
    match p, hh, hl, hOK with
    | [], hh, _, _ => cases hh
    | [x], hh, hl, _ =>
      simp only [List.head?_cons, Option.some.injEq] at hh
      simp only [List.getLast?_singleton, Option.some.injEq] at hl
      omega
    | a :: b :: rest, _, _, hOK =>
      simp [chainOK, edgeWeight, dbNoEdges] at hOK
  have h := unreachable_noPath dbNoEdges 1 2 (by decide) hnoreach
  exact ⟨by decide, h.1, h.2 "k" .timeout⟩

/-! ### Helper lemmas for the Dijkstra invariant (claim C1) -/

theorem tailAfter_cons_self (x : Nat) (l : List Nat) : tailAfter x (x :: l) = l := by
  rw [tailAfter, List.dropWhile_cons, if_neg (by simp)]
  rfl

theorem tailAfter_cons_ne (x y : Nat) (l : List Nat) (h : y ≠ x) :
    tailAfter x (y :: l) = tailAfter x l := by
  rw [tailAfter, List.dropWhile_cons, if_pos (by simp [h])]
  rfl

theorem dropWhile_ne_eq_cons (x : Nat) :
    ∀ l : List Nat, x ∈ l → l.dropWhile (· ≠ x) = x :: tailAfter x l
  | [], h => absurd h (List.not_mem_nil x)
  | a :: rest, h => by
    by_cases hax : a = x
    · subst hax
      rw [tailAfter_cons_self, List.dropWhile_cons, if_neg (by simp)]
    · have hx : x ∈ rest := by
        rcases List.mem_cons.1 h with h' | h'
        · exact absurd h'.symm hax
        · exact h'
      rw [tailAfter_cons_ne x a rest hax, List.dropWhile_cons, if_pos (by simp [hax])]
      exact dropWhile_ne_eq_cons x rest hx

theorem tailAfter_subset (x : Nat) (l : List Nat) : ∀ y ∈ tailAfter x l, y ∈ l := by
  intro y hy
  rw [tailAfter] at hy
  exact (List.dropWhile_sublist _).subset ((List.tail_sublist _).subset hy)

theorem tailAfter_measure (x u : Nat) :
    ∀ l : List Nat, l.Nodup → x ∈ l → u ∈ tailAfter x l →
      (l.dropWhile (· ≠ u)).length < (l.dropWhile (· ≠ x)).length
  | [], _, hx, _ => absurd hx (List.not_mem_nil x)
  | a :: rest, hnd, hx, hu => by
    rw [List.nodup_cons] at hnd
    by_cases hax : a = x
    · subst hax
      rw [tailAfter_cons_self] at hu
      have hua : a ≠ u := fun h => hnd.1 (h ▸ hu)
      rw [dropWhile_ne_eq_cons a (a :: rest) (List.mem_cons_self a rest)]
      rw [List.dropWhile_cons, if_pos (by simp [hua]), tailAfter_cons_self]
      simp only [List.length_cons]
      exact Nat.lt_succ_of_le (List.dropWhile_sublist _).length_le
    · have hx' : x ∈ rest := by
        rcases List.mem_cons.1 hx with h' | h'
        · exact absurd h'.symm hax
        · exact h'
      rw [tailAfter_cons_ne x a rest hax] at hu
      have hu' : u ∈ rest := tailAfter_subset x rest u hu
      have hua : a ≠ u := fun h => hnd.1 (h ▸ hu')
      rw [List.dropWhile_cons, if_pos (by simp [hua]),
        List.dropWhile_cons, if_pos (by simp [hax])]
      exact tailAfter_measure x u rest hnd.2 hx' hu

theorem dictGet_isSome_mem {κ α : Type} [DecidableEq κ] :
    ∀ (l : List (κ × α)) (k : κ), (dictGet l k).isSome → k ∈ l.map Prod.fst
  | [], _, h => by simp [dictGet] at h
  | (k0, v0) :: rest, k, h => by
    rw [dictGet_cons] at h
    by_cases hk : k = k0
    · rw [List.map_cons, hk]
      exact List.mem_cons_self _ _
    · rw [if_neg hk] at h
      exact List.mem_cons_of_mem _ (dictGet_isSome_mem rest k h)

theorem nodup_length_le_keys {l : List Nat} {m : List (Nat × Option Nat)}
    (hnd : l.Nodup) (hsub : ∀ v ∈ l, (dictGet m v).isSome) :
    l.length ≤ m.length := by
  have h1 : l.toFinset.card = l.length := List.toFinset_card_of_nodup hnd
  have h2 : l.toFinset ⊆ (m.map Prod.fst).toFinset := by
    intro x hx
    exact List.mem_toFinset.2 (dictGet_isSome_mem m x (hsub x (List.mem_toFinset.1 hx)))
  calc l.length = l.toFinset.card := h1.symm
    _ ≤ (m.map Prod.fst).toFinset.card := Finset.card_le_card h2
    _ ≤ (m.map Prod.fst).length := (m.map Prod.fst).toFinset_card_le
    _ = m.length := List.length_map _ _

theorem relaxStep_dist_decr (d : ℚ) (u : Nat) (st : LoopState) (vw : Nat × ℚ) :
    ∀ x q, dictGet st.dist x = some q →
      ∃ q', dictGet (relaxStep d u st vw).dist x = some q' ∧ q' ≤ q := by
  intro x q hq
  cases hc : dictGet st.dist vw.1 with
  | none =>
    rw [relaxStep_eq_of_none d u st vw hc]
    by_cases hx : x = vw.1
    · rw [hx] at hq
      rw [hq] at hc
      cases hc
    · refine ⟨q, ?_, le_refl q⟩
      rw [dictGet_cons, if_neg hx]
      exact hq
  | some dv =>
    by_cases halt : d + vw.2 < dv
    · rw [relaxStep_eq_of_lt d u st vw dv hc halt]
      by_cases hx : x = vw.1
      · refine ⟨d + vw.2, ?_, ?_⟩
        · rw [dictGet_cons, if_pos hx]
        · rw [hx] at hq
          rw [hq] at hc
          injection hc with hc
          rw [hc]
          exact le_of_lt halt
      · refine ⟨q, ?_, le_refl q⟩
        rw [dictGet_cons, if_neg hx]
        exact hq
    · rw [relaxStep_eq_of_ge d u st vw dv hc halt]
      exact ⟨q, hq, le_refl q⟩

theorem relaxNeighbors_dist_decr (d : ℚ) (u : Nat) :
    ∀ (nbrs : List (Nat × ℚ)) (st : LoopState) (x : Nat) (q : ℚ),
      dictGet st.dist x = some q →
      ∃ q', dictGet (relaxNeighbors d u nbrs st).dist x = some q' ∧ q' ≤ q
  | [], st, x, q, hq => ⟨q, hq, le_refl q⟩
  | vw :: rest, st, x, q, hq => by
    rcases relaxStep_dist_decr d u st vw x q hq with ⟨q1, hq1, hle1⟩
    rcases relaxNeighbors_dist_decr d u rest (relaxStep d u st vw) x q1 hq1 with ⟨q2, hq2, hle2⟩
    exact ⟨q2, hq2, le_trans hle2 hle1⟩

theorem heapLe_fst_le {a b : ℚ × Nat} (h : heapLe a b) : a.1 ≤ b.1 := by
  rcases h with h | ⟨h, -⟩
  · exact le_of_lt h
  · exact le_of_eq h

/-- The central lower-bound argument: walking any chain from a settled
node to an unsettled one, the pop key `d` is below the settled start's
distance plus the chain cost, because some frontier edge must be
crossed and all fringe values are at least `d`. -/
theorem chain_bound (edges : List Route) (origin : Nat)
    (hw : ∀ e ∈ edges, 0 ≤ e.distance)
    (dist : List (Nat × ℚ)) (visited : List Nat) (d : ℚ)
    (hfrontier : ∀ v ∈ visited, ∀ x w, edgeWeight edges v x = some w →
      ∃ qx qv, dictGet dist x = some qx ∧ dictGet dist v = some qv ∧ qx ≤ qv + w)
    (hdlb : ∀ x qx, dictGet dist x = some qx → ¬ x ∈ visited → d ≤ qx) :
    ∀ p : List Nat, chainOK edges p = true →
      ∀ hd0 y qh, p.head? = some hd0 → p.getLast? = some y →
        hd0 ∈ visited → ¬ y ∈ visited → dictGet dist hd0 = some qh →
        d ≤ qh + chainCost edges p
  | [], _, hd0, y, qh, hhead, _, _, _, _ => by simp at hhead
  | [x], _, hd0, y, qh, hhead, hlast, hhv, hyv, _ => by
    simp only [List.head?_cons, Option.some.injEq] at hhead
    simp only [List.getLast?_singleton, Option.some.injEq] at hlast
    rw [← hhead] at hhv
    rw [← hlast] at hyv
    exact absurd hhv hyv
  | node :: v :: rest, hOK, hd0, y, qh, hhead, hlast, hhv, hyv, hqh => by
    simp only [List.head?_cons, Option.some.injEq] at hhead
    subst hhead
    rw [chainOK, Bool.and_eq_true] at hOK
    rcases Option.isSome_iff_exists.1 hOK.1 with ⟨w, hw'⟩
    rcases hfrontier node hhv v w hw' with ⟨qv, qh2, hqv, hqh2, hrel⟩
    have hqeq : qh2 = qh := by
      rw [hqh] at hqh2
      injection hqh2 with h
      exact h.symm
    rw [hqeq] at hrel
    have hlast' : (v :: rest).getLast? = some y := by
      rw [List.getLast?_cons_cons] at hlast
      exact hlast
    have hcost : chainCost edges (node :: v :: rest) = w + chainCost edges (v :: rest) := by
      rw [chainCost, hw']
      rfl
    by_cases hvv : v ∈ visited
    · have ih := chain_bound edges origin hw dist visited d hfrontier hdlb
        (v :: rest) hOK.2 v y qv rfl hlast' hvv hyv hqv
      rw [hcost]
      calc d ≤ qv + chainCost edges (v :: rest) := ih
        _ ≤ (qh + w) + chainCost edges (v :: rest) := add_le_add_right hrel _
        _ = qh + (w + chainCost edges (v :: rest)) := by ring
    · have hd : d ≤ qv := hdlb v qv hqv hvv
      have hcn : 0 ≤ chainCost edges (v :: rest) := chainCost_nonneg hw _ hOK.2
      rw [hcost]
      calc d ≤ qv := hd
        _ ≤ qh + w := hrel
        _ ≤ qh + (w + chainCost edges (v :: rest)) := by linarith

/-- The key of the popped heap head equals the popped node's tentative
distance, when the node is not yet settled. -/
theorem pop_dist_eq (edges : List Route) (origin : Nat) (d : ℚ) (u : Nat)
    (rest : List (ℚ × Nat)) (dist : List (Nat × ℚ)) (prev : List (Nat × Option Nat))
    (visited : List Nat)
    (inv : DijkstraInv edges origin ((d, u) :: rest) dist prev visited)
    (hv : ¬ u ∈ visited) :
    dictGet dist u = some d := by
  rcases inv.heapDist (d, u) (List.mem_cons_self _ _) with ⟨q, hq, hle⟩
  have hmem := inv.fringeHeap u q hq hv
  rcases List.mem_cons.1 hmem with h | h
  · rw [Prod.mk.injEq] at h
    rw [hq, h.1]
  · have hle2 := heapLe_fst_le ((List.sorted_cons.1 inv.sorted).1 (q, u) h)
    rw [hq, le_antisymm hle hle2]

/-- The popped key is a lower bound on every `dist` value of a fringe
node. -/
theorem pop_fringe_lb (edges : List Route) (origin : Nat) (d : ℚ) (u : Nat)
    (rest : List (ℚ × Nat)) (dist : List (Nat × ℚ)) (prev : List (Nat × Option Nat))
    (visited : List Nat)
    (inv : DijkstraInv edges origin ((d, u) :: rest) dist prev visited) :
    ∀ x qx, dictGet dist x = some qx → ¬ x ∈ visited → d ≤ qx := by
  intro x qx hqx hxv
  have hmem := inv.fringeHeap x qx hqx hxv
  rcases List.mem_cons.1 hmem with h | h
  · rw [Prod.mk.injEq] at h
    exact le_of_eq h.1.symm
  · exact heapLe_fst_le ((List.sorted_cons.1 inv.sorted).1 (qx, x) h)

/-- Popping the heap minimum settles an optimal node: no chain from the
origin to the popped node costs less than the popped key. -/
theorem pop_optimal (edges : List Route) (origin : Nat)
    (hw : ∀ e ∈ edges, 0 ≤ e.distance) (d : ℚ) (u : Nat)
    (rest : List (ℚ × Nat)) (dist : List (Nat × ℚ)) (prev : List (Nat × Option Nat))
    (visited : List Nat)
    (inv : DijkstraInv edges origin ((d, u) :: rest) dist prev visited)
    (hv : ¬ u ∈ visited) :
    ∀ p, chainOK edges p = true → p.head? = some origin → p.getLast? = some u →
      d ≤ chainCost edges p := by
  intro p hOK hh hl
  have hdlb := pop_fringe_lb edges origin d u rest dist prev visited inv
  by_cases ho : origin ∈ visited
  · have := chain_bound edges origin hw dist visited d inv.frontier hdlb
      p hOK origin u 0 hh hl ho hv inv.origin0
    simpa using this
  · have hd0 : d ≤ 0 := hdlb origin 0 inv.origin0 ho
    have := chainCost_nonneg hw p hOK
    linarith

/-- Entering the relaxation fold: popping `(d, u)` off a state
satisfying the loop invariant yields the mid-relaxation invariant. -/
theorem midInv_init (edges : List Route) (origin : Nat)
    (hw : ∀ e ∈ edges, 0 ≤ e.distance) (d : ℚ) (u : Nat)
    (rest : List (ℚ × Nat)) (dist : List (Nat × ℚ)) (prev : List (Nat × Option Nat))
    (visited : List Nat)
    (inv : DijkstraInv edges origin ((d, u) :: rest) dist prev visited)
    (hv : ¬ u ∈ visited) :
    MidInv edges origin d u visited ⟨rest, dist, prev⟩ := by
  have hdu : dictGet dist u = some d :=
    pop_dist_eq edges origin d u rest dist prev visited inv hv
  have hpair := List.sorted_cons.1 inv.sorted
  have hopt := pop_optimal edges origin hw d u rest dist prev visited inv hv
  refine ⟨hpair.2, ?_, ?_, ?_, inv.origin0, inv.originPrev, hdu, ?_, ?_, ?_, ?_, ?_, ?_,
    inv.frontier, ?_⟩
  · intro p hp
    exact inv.keysNonneg p (List.mem_cons_of_mem _ hp)
  · intro p hp
    exact inv.heapDist p (List.mem_cons_of_mem _ hp)
  · intro x q hq hx
    simp only [List.mem_cons, not_or] at hx
    have hmem := inv.fringeHeap x q hq hx.2
    rcases List.mem_cons.1 hmem with h | h
    · rw [Prod.mk.injEq] at h
      exact absurd h.2 hx.1
    · exact h
  · exact inv.keysNonneg (d, u) (List.mem_cons_self _ _)
  · exact List.nodup_cons.2 ⟨hv, inv.visNodup⟩
  · intro v hvmem
    rcases List.mem_cons.1 hvmem with h | h
    · rw [h, hdu]
      rfl
    · exact inv.visKeys v h
  · intro v hvmem q hq
    rcases List.mem_cons.1 hvmem with h | h
    · rw [h] at hq
      rw [hdu] at hq
      injection hq with hq
      exact le_of_eq hq.symm
    · exact inv.popLB (d, u) (List.mem_cons_self _ _) v h q hq
  · intro x hx q hq p hOK hh hl
    rcases List.mem_cons.1 hx with h | h
    · rw [h] at hq
      rw [hdu] at hq
      injection hq with hq
      rw [← hq]
      exact hopt p hOK hh (h ▸ hl)
    · exact inv.visMin x h q hq p hOK hh hl
  · intro p hp v hvmem q hq
    rcases List.mem_cons.1 hvmem with h | h
    · rw [h] at hq
      rw [hdu] at hq
      injection hq with hq
      rw [← hq]
      exact heapLe_fst_le (hpair.1 p hp)
    · exact inv.popLB p (List.mem_cons_of_mem _ hp) v h q hq
  · intro x qx hq hne
    rcases inv.prevChain x qx hq hne with ⟨u', w, qu, h1, h2, h3, h4, h5, h6⟩
    refine ⟨u', w, qu, h1, h2, h3, h4, List.mem_cons_of_mem _ h5, ?_⟩
    intro hx
    rcases List.mem_cons.1 hx with h | h
    · rw [h, tailAfter_cons_self]
      exact h5
    · have hxu : x ≠ u := fun he => hv (he ▸ h)
      rw [tailAfter_cons_ne x u visited (Ne.symm hxu)]
      exact h6 h

/-- The mid-relaxation invariant survives an updating relaxation of the
adjacency entry `vw` (the cases where the tentative distance of `vw.1`
is created or improved). -/
theorem midInv_update (edges : List Route) (origin : Nat) (d : ℚ) (u : Nat)
    (oldVisited : List Nat) (st : LoopState) (vw : Nat × ℚ)
    (hedge : edgeWeight edges u vw.1 = some vw.2) (hw0 : 0 ≤ vw.2)
    (mid : MidInv edges origin d u oldVisited st)
    (hx0 : ¬ vw.1 ∈ u :: oldVisited)
    (hox : vw.1 ≠ origin)
    (hheap : ∀ p ∈ st.heap, p.2 = vw.1 → d + vw.2 ≤ p.1)
    (hdec : ∀ q, dictGet st.dist vw.1 = some q → d + vw.2 ≤ q) :
    MidInv edges origin d u oldVisited
      ⟨List.orderedInsert heapLe (d + vw.2, vw.1) st.heap,
       (vw.1, d + vw.2) :: st.dist, (vw.1, some u) :: st.prev⟩ := by
  have hux : ¬ u = vw.1 := fun h => hx0 (List.mem_cons.2 (Or.inl h.symm))
  refine ⟨?_, ?_, ?_, ?_, ?_, ?_, ?_, mid.dNonneg, mid.visNodup, ?_, ?_, ?_, ?_, ?_, ?_⟩
  · exact List.Sorted.orderedInsert _ _ mid.sorted
  · intro p hp
    rcases (List.mem_orderedInsert heapLe).1 hp with h | h
    · rw [h]
      exact add_nonneg mid.dNonneg hw0
    · exact mid.keysNonneg p h
  · intro p hp
    rcases (List.mem_orderedInsert heapLe).1 hp with h | h
    · rw [h]
      exact ⟨d + vw.2, by rw [dictGet_cons, if_pos rfl], le_refl _⟩
    · rcases mid.heapDist p h with ⟨q, hq, hle⟩
      by_cases hpx : p.2 = vw.1
      · exact ⟨d + vw.2, by rw [dictGet_cons, if_pos hpx], hheap p h hpx⟩
      · exact ⟨q, by rw [dictGet_cons, if_neg hpx]; exact hq, hle⟩
  · intro x q hq hx
    rw [dictGet_cons] at hq
    by_cases hxv : x = vw.1
    · rw [if_pos hxv] at hq
      injection hq with hq
      rw [← hq, hxv]
      exact (List.mem_orderedInsert heapLe).2 (Or.inl rfl)
    · rw [if_neg hxv] at hq
      exact (List.mem_orderedInsert heapLe).2 (Or.inr (mid.fringeHeap x q hq hx))
  · rw [dictGet_cons, if_neg (fun h => hox h.symm)]
    exact mid.origin0
  · rw [dictGet_cons, if_neg (fun h => hox h.symm)]
    exact mid.originPrev
  · rw [dictGet_cons, if_neg hux]
    exact mid.distU
  · intro v hvmem
    have hvx : ¬ v = vw.1 := fun h => hx0 (h ▸ hvmem)
    rw [dictGet_cons, if_neg hvx]
    exact mid.visKeys v hvmem
  · intro v hvmem q hq
    have hvx : ¬ v = vw.1 := fun h => hx0 (h ▸ hvmem)
    rw [dictGet_cons, if_neg hvx] at hq
    exact mid.dlb v hvmem q hq
  · intro x hx q hq p hOK hh hl
    have hvx : ¬ x = vw.1 := fun h => hx0 (h ▸ hx)
    rw [dictGet_cons, if_neg hvx] at hq
    exact mid.visMin x hx q hq p hOK hh hl
  · intro p hp v hvmem q hq
    have hvx : ¬ v = vw.1 := fun h => hx0 (h ▸ hvmem)
    rw [dictGet_cons, if_neg hvx] at hq
    rcases (List.mem_orderedInsert heapLe).1 hp with h | h
    · rw [h]
      exact le_trans (mid.dlb v hvmem q hq) (le_add_of_nonneg_right hw0)
    · exact mid.popLB p h v hvmem q hq
  · intro v hvmem x w' hew
    rcases mid.frontierOld v hvmem x w' hew with ⟨qx, qv, hqx, hqv, hrel⟩
    have hvx : ¬ v = vw.1 := fun h => hx0 (List.mem_cons.2 (Or.inr (h ▸ hvmem)))
    by_cases hxx : x = vw.1
    · refine ⟨d + vw.2, qv, by rw [dictGet_cons, if_pos hxx],
        by rw [dictGet_cons, if_neg hvx]; exact hqv, ?_⟩
      rw [hxx] at hqx
      exact le_trans (hdec qx hqx) hrel
    · exact ⟨qx, qv, by rw [dictGet_cons, if_neg hxx]; exact hqx,
        by rw [dictGet_cons, if_neg hvx]; exact hqv, hrel⟩
  · intro x qx hqx hne
    rw [dictGet_cons] at hqx
    by_cases hxx : x = vw.1
    · rw [if_pos hxx] at hqx
      injection hqx with hqx
      refine ⟨u, vw.2, d, ?_, ?_, ?_, hqx.symm, List.mem_cons_self _ _, ?_⟩
      · rw [dictGet_cons, if_pos hxx]
      · rw [hxx]
        exact hedge
      · rw [dictGet_cons, if_neg hux]
        exact mid.distU
      · intro hxmem
        exact absurd (hxx ▸ hxmem) hx0
    · rw [if_neg hxx] at hqx
      rcases mid.prevChain x qx hqx hne with ⟨u', w', qu, h1, h2, h3, h4, h5, h6⟩
      have hux' : ¬ u' = vw.1 := fun h => hx0 (h ▸ h5)
      exact ⟨u', w', qu, by rw [dictGet_cons, if_neg hxx]; exact h1, h2,
        by rw [dictGet_cons, if_neg hux']; exact h3, h4, h5, h6⟩

/-- One relaxation step preserves the mid-relaxation invariant and
leaves the relaxed target with a tentative distance of at most
`d + vw.2`. -/
theorem midInv_step (edges : List Route) (origin : Nat) (d : ℚ) (u : Nat)
    (oldVisited : List Nat) (st : LoopState) (vw : Nat × ℚ)
    (hedge : edgeWeight edges u vw.1 = some vw.2) (hw0 : 0 ≤ vw.2)
    (mid : MidInv edges origin d u oldVisited st) :
    MidInv edges origin d u oldVisited (relaxStep d u st vw) ∧
    ∃ q, dictGet (relaxStep d u st vw).dist vw.1 = some q ∧ q ≤ d + vw.2 := by
  cases hc : dictGet st.dist vw.1 with
  | none =>
    have hx0 : ¬ vw.1 ∈ u :: oldVisited := by
      intro hmem
      have := mid.visKeys vw.1 hmem
      rw [hc] at this
      simp at this
    have hox : vw.1 ≠ origin := by
      intro h
      rw [h, mid.origin0] at hc
      cases hc
    have hheap : ∀ p ∈ st.heap, p.2 = vw.1 → d + vw.2 ≤ p.1 := by
      intro p hp hpx
      rcases mid.heapDist p hp with ⟨q, hq, -⟩
      rw [hpx, hc] at hq
      cases hq
    have hdec : ∀ q, dictGet st.dist vw.1 = some q → d + vw.2 ≤ q := by
      intro q hq
      rw [hc] at hq
      cases hq
    rw [relaxStep_eq_of_none d u st vw hc]
    refine ⟨midInv_update edges origin d u oldVisited st vw hedge hw0 mid hx0 hox hheap hdec,
      d + vw.2, ?_, le_refl _⟩
    rw [dictGet_cons, if_pos rfl]
  | some dv =>
    by_cases halt : d + vw.2 < dv
    · have hx0 : ¬ vw.1 ∈ u :: oldVisited := by
        intro hmem
        have := mid.dlb vw.1 hmem dv hc
        linarith
      have hox : vw.1 ≠ origin := by
        intro h
        rw [h, mid.origin0] at hc
        injection hc with hc
        rw [← hc] at halt
        have := add_nonneg mid.dNonneg hw0
        linarith
      have hheap : ∀ p ∈ st.heap, p.2 = vw.1 → d + vw.2 ≤ p.1 := by
        intro p hp hpx
        rcases mid.heapDist p hp with ⟨q, hq, hle⟩
        rw [hpx, hc] at hq
        injection hq with hq
        rw [hq] at halt
        linarith
      have hdec : ∀ q, dictGet st.dist vw.1 = some q → d + vw.2 ≤ q := by
        intro q hq
        rw [hc] at hq
        injection hq with hq
        rw [← hq]
        exact le_of_lt halt
      rw [relaxStep_eq_of_lt d u st vw dv hc halt]
      refine ⟨midInv_update edges origin d u oldVisited st vw hedge hw0 mid hx0 hox hheap hdec,
        d + vw.2, ?_, le_refl _⟩
      rw [dictGet_cons, if_pos rfl]
    · rw [relaxStep_eq_of_ge d u st vw dv hc halt]
      exact ⟨mid, dv, hc, le_of_not_lt halt⟩

theorem relaxNeighbors_cons (d : ℚ) (u : Nat) (vw : Nat × ℚ) (rest : List (Nat × ℚ))
    (st : LoopState) :
    relaxNeighbors d u (vw :: rest) st = relaxNeighbors d u rest (relaxStep d u st vw) := rfl

/-- Folding the whole adjacency list preserves the mid-relaxation
invariant and leaves every adjacency target with a tentative distance of
at most the popped key plus the edge weight. -/
theorem midInv_fold (edges : List Route) (origin : Nat) (d : ℚ) (u : Nat)
    (oldVisited : List Nat) :
    ∀ (nbrs : List (Nat × ℚ)) (st : LoopState),
      (∀ vw ∈ nbrs, edgeWeight edges u vw.1 = some vw.2 ∧ 0 ≤ vw.2) →
      MidInv edges origin d u oldVisited st →
      MidInv edges origin d u oldVisited (relaxNeighbors d u nbrs st) ∧
      ∀ vw ∈ nbrs, ∃ q, dictGet (relaxNeighbors d u nbrs st).dist vw.1 = some q ∧
        q ≤ d + vw.2
  | [], st, _, mid => ⟨mid, fun vw hvw => absurd hvw (List.not_mem_nil vw)⟩
  | vw :: rest, st, hnb, mid => by
    rcases midInv_step edges origin d u oldVisited st vw (hnb vw (List.mem_cons_self _ _)).1
      (hnb vw (List.mem_cons_self _ _)).2 mid with ⟨mid1, q1, hq1, hle1⟩
    rcases midInv_fold edges origin d u oldVisited rest (relaxStep d u st vw)
      (fun x hx => hnb x (List.mem_cons_of_mem _ hx)) mid1 with ⟨mid2, hrest⟩
    rw [relaxNeighbors_cons]
    refine ⟨mid2, ?_⟩
    intro x hx
    rcases List.mem_cons.1 hx with h | h
    · rw [h]
      rcases relaxNeighbors_dist_decr d u rest (relaxStep d u st vw) vw.1 q1 hq1
        with ⟨q2, hq2, hle2⟩
      exact ⟨q2, hq2, le_trans hle2 hle1⟩
    · exact hrest x h

/-- After the full relaxation fold, the mid-relaxation invariant plus
the fold's frontier clause rebuild the loop invariant with the popped
node settled. -/
theorem midInv_assemble (edges : List Route) (origin : Nat) (d : ℚ) (u : Nat)
    (oldVisited : List Nat) (st : LoopState)
    (hu : EdgeKeysNodup edges)
    (mid : MidInv edges origin d u oldVisited st)
    (hfront : ∀ vw ∈ build_graph edges u,
      ∃ q, dictGet st.dist vw.1 = some q ∧ q ≤ d + vw.2) :
    DijkstraInv edges origin st.heap st.dist st.prev (u :: oldVisited) := by
  refine ⟨mid.sorted, mid.keysNonneg, mid.heapDist, mid.fringeHeap, mid.origin0,
    mid.originPrev, mid.visNodup, mid.visKeys, mid.visMin, mid.popLB, ?_, mid.prevChain⟩
  intro v hvmem x w hew
  rcases List.mem_cons.1 hvmem with h | h
  · subst h
    have hmem : (x, w) ∈ build_graph edges v := (mem_build_graph_iff hu).2 hew
    rcases hfront (x, w) hmem with ⟨qx, hqx, hle⟩
    exact ⟨qx, d, hqx, mid.distU, hle⟩
  · exact mid.frontierOld v h x w hew

/-- Skipping an already-settled heap head preserves the loop
invariant. -/
theorem inv_skip (edges : List Route) (origin : Nat) (d : ℚ) (u : Nat)
    (rest : List (ℚ × Nat)) (dist : List (Nat × ℚ)) (prev : List (Nat × Option Nat))
    (visited : List Nat)
    (inv : DijkstraInv edges origin ((d, u) :: rest) dist prev visited)
    (hv : u ∈ visited) :
    DijkstraInv edges origin rest dist prev visited := by
  refine ⟨(List.sorted_cons.1 inv.sorted).2, ?_, ?_, ?_, inv.origin0, inv.originPrev,
    inv.visNodup, inv.visKeys, inv.visMin, ?_, inv.frontier, inv.prevChain⟩
  · intro p hp
    exact inv.keysNonneg p (List.mem_cons_of_mem _ hp)
  · intro p hp
    exact inv.heapDist p (List.mem_cons_of_mem _ hp)
  · intro x q hq hx
    have hmem := inv.fringeHeap x q hq hx
    rcases List.mem_cons.1 hmem with h | h
    · rw [Prod.mk.injEq] at h
      exact absurd (h.2.symm ▸ hv) hx
    · exact h
  · intro p hp
    exact inv.popLB p (List.mem_cons_of_mem _ hp)

/-- The predecessor walk reconstructs, for every settled node, a chain
from the origin of cost exactly the node's tentative distance.  Fuel is
counted by the node's position from the end of the settled list. -/
theorem walk_spec (edges : List Route) (origin : Nat) (dist : List (Nat × ℚ))
    (prev : List (Nat × Option Nat)) (visited : List Nat)
    (hnd : visited.Nodup)
    (h0 : dictGet dist origin = some 0)
    (hp0 : dictGet prev origin = some none)
    (hpc : ∀ x qx, dictGet dist x = some qx → x ≠ origin →
      ∃ u w qu, dictGet prev x = some (some u) ∧ edgeWeight edges u x = some w ∧
        dictGet dist u = some qu ∧ qx = qu + w ∧ u ∈ visited ∧
        (x ∈ visited → u ∈ tailAfter x visited)) :
    ∀ (fuel : Nat) (v : Nat) (qv : ℚ), v ∈ visited → dictGet dist v = some qv →
      (visited.dropWhile (· ≠ v)).length ≤ fuel →
      ∃ L, walkPrev prev fuel v = some L ∧ L.head? = some v ∧ L.getLast? = some origin ∧
        chainOK edges L.reverse = true ∧ chainCost edges L.reverse = qv
  | 0, v, qv, hv, hqv, hfuel => by
    rw [dropWhile_ne_eq_cons v visited hv] at hfuel
    simp at hfuel
  | fuel + 1, v, qv, hv, hqv, hfuel => by
    by_cases hvo : v = origin
    · rw [hvo] at hqv
      rw [h0] at hqv
      injection hqv with hqv
      refine ⟨[v], ?_, rfl, ?_, ?_, ?_⟩
      · rw [walkPrev, hvo, hp0]
        rfl
      · simp [hvo]
      · rfl
      · exact hqv
    · rcases hpc v qv hqv hvo with ⟨u', w, qu, hprev, hedge, hqu, hsum, hu'v, htail⟩
      have hmeas := tailAfter_measure v u' visited hnd hv (htail hv)
      have hfu : (visited.dropWhile (· ≠ u')).length ≤ fuel := by omega
      rcases walk_spec edges origin dist prev visited hnd h0 hp0 hpc fuel u' qu hu'v hqu hfu
        with ⟨L', hwalk, hhead, hlast, hOK, hcost⟩
      have hlastrev : L'.reverse.getLast? = some u' := by
        rw [List.getLast?_reverse]
        exact hhead
      refine ⟨v :: L', ?_, rfl, ?_, ?_, ?_⟩
      · rw [walkPrev, hprev]
        show (walkPrev prev fuel u').map (v :: ·) = some (v :: L')
        rw [hwalk]
        rfl
      · cases L' with
        | nil => cases hhead
        | cons a tl =>
          rw [List.getLast?_cons_cons]
          exact hlast
      · rw [List.reverse_cons, chainOK_append edges L'.reverse u' v hlastrev, hOK,
          Bool.true_and, hedge]
        rfl
      · rw [List.reverse_cons, chainCost_append edges L'.reverse u' v hlastrev, hcost, hedge,
          Option.getD_some]
        exact hsum.symm

/-- The predecessor walk also reconstructs a chain for a node that is
merely discovered (the destination at the break), with fuel one more
than the settled count. -/
theorem walk_spec_top (edges : List Route) (origin : Nat) (dist : List (Nat × ℚ))
    (prev : List (Nat × Option Nat)) (visited : List Nat)
    (hnd : visited.Nodup)
    (h0 : dictGet dist origin = some 0)
    (hp0 : dictGet prev origin = some none)
    (hpc : ∀ x qx, dictGet dist x = some qx → x ≠ origin →
      ∃ u w qu, dictGet prev x = some (some u) ∧ edgeWeight edges u x = some w ∧
        dictGet dist u = some qu ∧ qx = qu + w ∧ u ∈ visited ∧
        (x ∈ visited → u ∈ tailAfter x visited)) :
    ∀ (fuel : Nat) (x : Nat) (qx : ℚ), dictGet dist x = some qx →
      visited.length + 1 ≤ fuel →
      ∃ L, walkPrev prev fuel x = some L ∧ L.head? = some x ∧ L.getLast? = some origin ∧
        chainOK edges L.reverse = true ∧ chainCost edges L.reverse = qx := by
  intro fuel x qx hqx hfuel
  cases fuel with
  | zero => omega
  | succ f =>
    by_cases hxo : x = origin
    · rw [hxo] at hqx
      rw [h0] at hqx
      injection hqx with hqx
      refine ⟨[x], ?_, rfl, ?_, ?_, ?_⟩
      · rw [walkPrev, hxo, hp0]
        rfl
      · simp [hxo]
      · rfl
      · exact hqx
    · rcases hpc x qx hqx hxo with ⟨u', w, qu, hprev, hedge, hqu, hsum, hu'v, -⟩
      have hm : (visited.dropWhile (· ≠ u')).length ≤ f := by
        have h1 : (visited.dropWhile (· ≠ u')).length ≤ visited.length :=
          (List.dropWhile_sublist _).length_le
        omega
      rcases walk_spec edges origin dist prev visited hnd h0 hp0 hpc f u' qu hu'v hqu hm
        with ⟨L', hwalk, hhead, hlast, hOK, hcost⟩
      have hlastrev : L'.reverse.getLast? = some u' := by
        rw [List.getLast?_reverse]
        exact hhead
      refine ⟨x :: L', ?_, rfl, ?_, ?_, ?_⟩
      · rw [walkPrev, hprev]
        show (walkPrev prev f u').map (x :: ·) = some (x :: L')
        rw [hwalk]
        rfl
      · cases L' with
        | nil => cases hhead
        | cons a tl =>
          rw [List.getLast?_cons_cons]
          exact hlast
      · rw [List.reverse_cons, chainOK_append edges L'.reverse u' x hlastrev, hOK,
          Bool.true_and, hedge]
        rfl
      · rw [List.reverse_cons, chainCost_append edges L'.reverse u' x hlastrev, hcost, hedge,
          Option.getD_some]
        exact hsum.symm

/-- The loop invariant holds for the initial heap, `dist` and `prev`
dicts of `dijkstra_shortest_path`. -/
theorem inv_init (edges : List Route) (origin : Nat) :
    DijkstraInv edges origin [(0, origin)] [(origin, 0)] [(origin, none)] [] := by
  refine ⟨?_, ?_, ?_, ?_, ?_, ?_, ?_, ?_, ?_, ?_, ?_, ?_⟩
  · exact List.sorted_singleton _
  · intro p hp
    rw [List.mem_singleton] at hp
    rw [hp]
  · intro p hp
    rw [List.mem_singleton] at hp
    rw [hp]
    exact ⟨0, by rw [dictGet_cons, if_pos rfl], le_refl 0⟩
  · intro x q hq hx
    rw [dictGet_cons] at hq
    by_cases hxo : x = origin
    · rw [if_pos hxo] at hq
      injection hq with hq
      rw [← hq, hxo]
      exact List.mem_singleton.2 rfl
    · rw [if_neg hxo] at hq
      simp [dictGet] at hq
  · rw [dictGet_cons, if_pos rfl]
  · rw [dictGet_cons, if_pos rfl]
  · exact List.nodup_nil
  · intro x hx
    exact absurd hx (List.not_mem_nil x)
  · intro x hx
    exact absurd hx (List.not_mem_nil x)
  · intro p hp v hv
    exact absurd hv (List.not_mem_nil v)
  · intro v hv
    exact absurd hv (List.not_mem_nil v)
  · intro x qx hq hne
    rw [dictGet_cons] at hq
    by_cases hxo : x = origin
    · exact absurd hxo hne
    · rw [if_neg hxo] at hq
      simp [dictGet] at hq

/-- Running the main loop from any state satisfying the loop invariant
yields final dicts satisfying the optimality / reconstruction
post-condition for the destination. -/
theorem loop_post (edges : List Route) (origin dest : Nat)
    (hw : ∀ e ∈ edges, 0 ≤ e.distance) (hu : EdgeKeysNodup edges) :
    ∀ (fuel : Nat) (heap : List (ℚ × Nat)) (dist : List (Nat × ℚ))
      (prev : List (Nat × Option Nat)) (visited : List Nat)
      (dist' : List (Nat × ℚ)) (prev' : List (Nat × Option Nat)),
      DijkstraInv edges origin heap dist prev visited →
      dijkstraLoop (build_graph edges) dest fuel heap dist prev visited = some (dist', prev') →
      LoopPost edges origin dest dist' prev'
  | 0, _, _, _, _, _, _, _, h => by cases h
  | fuel + 1, [], dist, prev, visited, dist', prev', inv, h => by
    rw [dijkstraLoop] at h
    injection h with h
    injection h with h1 h2
    subst h1
    subst h2
    intro t ht
    have hdv : dest ∈ visited := by
      by_contra hdv
      exact absurd (inv.fringeHeap dest t ht hdv) (List.not_mem_nil _)
    have hkeys : ∀ v ∈ visited, (dictGet prev v).isSome := by
      intro v hvm
      by_cases hvo : v = origin
      · rw [hvo, inv.originPrev]
        rfl
      · rcases Option.isSome_iff_exists.1 (inv.visKeys v hvm) with ⟨qv, hqv⟩
        rcases inv.prevChain v qv hqv hvo with ⟨u', w, qu, hprev, -⟩
        rw [hprev]
        rfl
    have hlen : visited.length ≤ prev.length := nodup_length_le_keys inv.visNodup hkeys
    refine ⟨fun p hOK hh hl => inv.visMin dest hdv t ht p hOK hh hl, ?_⟩
    exact walk_spec_top edges origin dist prev visited inv.visNodup inv.origin0
      inv.originPrev inv.prevChain (prev.length + 1) dest t ht (by omega)
  | fuel + 1, (d, u) :: rest, dist, prev, visited, dist', prev', inv, h => by
    rw [dijkstraLoop] at h
    by_cases hv : u ∈ visited
    · rw [if_pos hv] at h
      exact loop_post edges origin dest hw hu fuel rest dist prev visited dist' prev'
        (inv_skip edges origin d u rest dist prev visited inv hv) h
    · rw [if_neg hv] at h
      by_cases hd : u = dest
      · rw [if_pos hd] at h
        injection h with h
        injection h with h1 h2
        subst h1
        subst h2
        intro t ht
        have hdu := pop_dist_eq edges origin d u rest dist prev visited inv hv
        have hdd : dictGet dist dest = some d := by
          rw [← hd]
          exact hdu
        have htd : d = t := by
          have h2 := hdd
          rw [ht] at h2
          injection h2 with h2
          exact h2.symm
        have hkeys : ∀ v ∈ visited, (dictGet prev v).isSome := by
          intro v hvm
          by_cases hvo : v = origin
          · rw [hvo, inv.originPrev]
            rfl
          · rcases Option.isSome_iff_exists.1 (inv.visKeys v hvm) with ⟨qv, hqv⟩
            rcases inv.prevChain v qv hqv hvo with ⟨u', w, qu, hprev, -⟩
            rw [hprev]
            rfl
        have hlen : visited.length ≤ prev.length := nodup_length_le_keys inv.visNodup hkeys
        refine ⟨?_, ?_⟩
        · intro p hOK hh hl
          rw [← htd]
          exact pop_optimal edges origin hw d u rest dist prev visited inv hv p hOK hh
            (hd.symm ▸ hl)
        · exact walk_spec_top edges origin dist prev visited inv.visNodup inv.origin0
            inv.originPrev inv.prevChain (prev.length + 1) dest t ht (by omega)
      · rw [if_neg hd] at h
        have mid0 := midInv_init edges origin hw d u rest dist prev visited inv hv
        have hnb : ∀ vw ∈ build_graph edges u,
            edgeWeight edges u vw.1 = some vw.2 ∧ 0 ≤ vw.2 := by
          intro vw hvw
          have he : edgeWeight edges u vw.1 = some vw.2 := (mem_build_graph_iff hu).1 hvw
          exact ⟨he, edgeWeight_nonneg hw he⟩
        rcases midInv_fold edges origin d u visited (build_graph edges u) ⟨rest, dist, prev⟩
          hnb mid0 with ⟨mid1, hfr⟩
        have inv' := midInv_assemble edges origin d u visited
          (relaxNeighbors d u (build_graph edges u) ⟨rest, dist, prev⟩) hu mid1 hfr
        exact loop_post edges origin dest hw hu fuel _ _ _ (u :: visited) dist' prev' inv' h

/-- C1: over any store whose edge distances are all non-negative and
whose `(start_stop, end_stop)` edge keys are unique (the model's
`unique_together` invariant), every successful `dijkstra_shortest_path`
result has a `path` that starts at the origin, ends at the destination
and follows persisted edges, a `total_distance` equal to the sum of the
distances of the consecutive edges of that path, and no other directed
path of persisted edges from origin to destination has a strictly
smaller sum of edge distances. -/
theorem dijkstra_shortest_path_correct (db : DB) (o d : Nat) (r : PathResult)
    (hw : ∀ e ∈ db.edges, 0 ≤ e.distance) (hu : EdgeKeysNodup db.edges)
    (hr : dijkstra_shortest_path db o d = .ok r) :
    r.path.head? = some o ∧ r.path.getLast? = some d ∧
    chainOK db.edges r.path = true ∧
    r.total_distance = chainCost db.edges r.path ∧
    ∀ p, chainOK db.edges p = true → p.head? = some o → p.getLast? = some d →
      r.total_distance ≤ chainCost db.edges p := by
  by_cases hod : o = d
  · simp only [dijkstra_shortest_path, if_pos hod] at hr
    split at hr
    · cases hr
    · rename_i stop hfind
      injection hr with hr
      refine ⟨?_, ?_, ?_, ?_, ?_⟩
      · rw [← hr]
        rfl
      · rw [← hr, hod]
        rfl
      · rw [← hr]
        rfl
      · rw [← hr]
        rfl
      · intro p hOK hh hl
        have h0 := chainCost_nonneg hw p hOK
        have hrt : r.total_distance = 0 := by
          rw [← hr]
        rw [hrt]
        exact h0
  · rcases dijkstra_ok_inversion db o d r hod hr with
      ⟨dist, prev, total, rev, ordered, hloop, htotal, hwalk, hstops, hreq⟩
    have hpost := loop_post db.edges o d hw hu (dijkstraFuel db.edges o)
      [(0, o)] [(o, 0)] [(o, none)] [] dist prev (inv_init db.edges o) hloop
    rcases hpost total htotal with ⟨hopt, L, hwalkL, hheadL, hlastL, hOKL, hcostL⟩
    have hLrev : L = rev := by
      rw [hwalkL] at hwalk
      injection hwalk
    have hpath : r.path = rev.reverse := by
      rw [hreq]
    have hrt : r.total_distance = total := by
      rw [hreq]
    refine ⟨?_, ?_, ?_, ?_, ?_⟩
    · rw [hpath, List.head?_reverse, ← hLrev]
      exact hlastL
    · rw [hpath, List.getLast?_reverse, ← hLrev]
      exact hheadL
    · rw [hpath, ← hLrev]
      exact hOKL
    · rw [hpath, ← hLrev, hcostL, hrt]
    · intro p hOK hh hl
      rw [hrt]
      exact hopt p hOK hh hl

theorem dijkstra_shortest_path_correct_witness :
    (∀ e ∈ dbScenario.edges, 0 ≤ e.distance) ∧ EdgeKeysNodup dbScenario.edges ∧
    dijkstra_shortest_path dbScenario 1 3 =
      .ok ⟨[1, 2, 3], 2, [⟨1, "A", 0, 0⟩, ⟨2, "B", 0, 1⟩, ⟨3, "C", 1, 1⟩], none⟩ ∧
    (([1, 2, 3] : List Nat).head? = some 1 ∧ ([1, 2, 3] : List Nat).getLast? = some 3 ∧
     chainOK dbScenario.edges [1, 2, 3] = true ∧
     (2 : ℚ) = chainCost dbScenario.edges [1, 2, 3] ∧
     ∀ p, chainOK dbScenario.edges p = true → p.head? = some 1 → p.getLast? = some 3 →
       (2 : ℚ) ≤ chainCost dbScenario.edges p) := by
  refine ⟨by with_unfolding_all decide, by unfold EdgeKeysNodup; with_unfolding_all decide,
    by with_unfolding_all decide, ?_⟩
  exact dijkstra_shortest_path_correct dbScenario 1 3
    ⟨[1, 2, 3], 2, [⟨1, "A", 0, 0⟩, ⟨2, "B", 0, 1⟩, ⟨3, "C", 1, 1⟩], none⟩
    (by with_unfolding_all decide) (by unfold EdgeKeysNodup; with_unfolding_all decide)
    (by with_unfolding_all decide)

end SmartRoute
